import Mathlib

/-!
Verification of the Floyd-Warshall engines of `rhasler1/c464_finalproject`.

The repository stores a dense directed graph as a flattened `n × n` array of
`int` weights (`graph[i * n + j]` is the weight of edge `i → j`).  We embed a
flattened matrix as a curried function `Nat → Nat → Int`; the flat offset
`i * n + j` of the C++ code corresponds to the argument pair `(i, j)`.

`src/src/kernels.cpp` provides three engines:
  * `serial_floyd_warshall`  (lines 169-186),
  * `naive_floyd_warshall`   (lines 149-167, OpenMP parallel over `i`),
  * `blocked_floyd_warshall` (lines 61-147, three phases per outer block).
The OpenMP loops are modelled by parametrizing over the order in which the
parallel iterations commit (`sched` arguments below); a run with any thread
count corresponds to some such order.

`src/src/graph.cpp` provides the random graph generator; its `rand()` calls
are modelled by an explicit stream of numbers, and its rejection-sampling
`while` loop by an explicit fuel parameter (`none` = the loop has not finished
within the given fuel).
-/

/-- Matrices, as curried functions out of the flat index `i * n + j`. -/
def Mat : Type := Nat → Nat → Int

/-- Modelled from the spec: the sentinel `INF` of `globals.h` (that header is
not part of the sources).  Per §3 of the spec the sentinel is a positive value
large enough that `INF + INF` does not overflow `int` and that never compares
cheaper than a real path; we fix the customary `2^30 - 1`. -/
def INF : Int := 1073741823

/-- Write value `v` at position `(i, j)` of a matrix. -/
def upd (g : Mat) (i j : Nat) (v : Int) : Mat :=
  fun x y => if x = i ∧ y = j then v else g x y

/-- The combinator `loopUp f m a` runs `for (t = 0; t < m; ++t) a = f t a`. -/
def loopUp {α : Type} (f : Nat → α → α) : Nat → α → α
  | 0, a => a
  | m + 1, a => f m (loopUp f m a)

/-- The value `minTo f r a` is `min (a, f 0, f 1, …, f (r-1))`. -/
def minTo (f : Nat → Int) : Nat → Int → Int
  | 0, a => a
  | r + 1, a => min (minTo f r a) (f r)

/-! ## The Floyd-Warshall recurrence `delta`

`delta W m i j` is the standard Floyd-Warshall value: the length of a
cheapest path `i → j` whose intermediate vertices all lie below `m`,
computed by the textbook recurrence.  All engines are proved to compute
`delta W n` on the `n × n` index square. -/
def delta (W : Mat) : Nat → Mat
  | 0 => W
  | m + 1 => fun i j => min (delta W m i j) (delta W m i m + delta W m m j)

/-! ## Data-model invariants (spec §3)

`Bnd g n`: every entry of the `n × n` square is non-negative and at most the
sentinel.  `ValidGraph g n` is the spec's DenseGraph invariant: zero diagonal
and every entry a finite non-negative weight or the sentinel. -/
def Bnd (g : Mat) (n : Nat) : Prop :=
  ∀ i, i < n → ∀ j, j < n → 0 ≤ g i j ∧ g i j ≤ INF

def ValidGraph (g : Mat) (n : Nat) : Prop :=
  (∀ i, i < n → g i i = 0) ∧
    ∀ i, i < n → ∀ j, j < n → g i j = INF ∨ (0 ≤ g i j ∧ g i j < INF)

/-! ## The serial and naive engines (kernels.cpp lines 149-186) -/
/-- The relaxation body shared by `serial_floyd_warshall` and
`naive_floyd_warshall` (kernels.cpp lines 155-163 and 174-182):
```
if (graph[i*n+j] > (graph[i*n+k] + graph[k*n+j]) &&
    graph[k*n+j] != INF && graph[i*n+k] != INF)
  graph[i*n+j] = graph[i*n+k] + graph[k*n+j];
``` -/
def fwBody (k : Nat) (g : Mat) (i j : Nat) : Mat :=
  if g i j > g i k + g k j ∧ g k j ≠ INF ∧ g i k ≠ INF
  then upd g i j (g i k + g k j) else g

/-- The engine `serial_floyd_warshall` (kernels.cpp lines 169-186): three nested loops
`k`, `i`, `j`, in place. -/
def serial_floyd_warshall (g : Mat) (n : Nat) : Mat :=
  loopUp (fun k g => loopUp (fun i g => loopUp (fun j g => fwBody k g i j) n g) n g) n g

/-- One iteration of the `#pragma omp parallel for schedule(static)` loop of
`naive_floyd_warshall` (kernels.cpp line 153): the full inner `j` loop for one
row `i`. -/
def naiveTask (k n : Nat) (g : Mat) (i : Nat) : Mat :=
  loopUp (fun j g => fwBody k g i j) n g

/-- The engine `naive_floyd_warshall` (kernels.cpp lines 149-167).  The OpenMP worker
pool is modelled by the order `sched k` in which the parallel row tasks of
iteration `k` commit; any thread count yields some such order. -/
def naive_floyd_warshall (g : Mat) (n : Nat) (sched : Nat → List Nat) : Mat :=
  loopUp (fun k g => (sched k).foldl (naiveTask k n) g) n g

/-- The per-`k` snapshot update: what one whole pass with intermediate `k`
computes from the pass's starting matrix. -/
def snapMat (g : Mat) (k : Nat) : Mat :=
  fun x y => min (g x y) (g x k + g k y)

/-- Partially processed pass state: rows listed in `s` are fully relaxed,
row `i` is relaxed for columns below `j`, everything else is untouched. -/
def rowPartial (g : Mat) (n k : Nat) (s : List Nat) (i j : Nat) : Mat :=
  fun x y => if (x ∈ s ∨ (x = i ∧ y < j)) ∧ x < n ∧ y < n then snapMat g k x y else g x y

/-- Pass state with the rows of `s` fully relaxed. -/
def rowsDone (g : Mat) (n k : Nat) (s : List Nat) : Mat :=
  fun x y => if x ∈ s ∧ x < n ∧ y < n then snapMat g k x y else g x y

/-- The matrix state after `m` complete outer iterations: the recurrence on
the `n × n` square, untouched values outside it. -/
def deltaState (W : Mat) (n m : Nat) : Mat :=
  fun x y => if x < n ∧ y < n then delta W m x y else W x y

/-! ## The blocked engine (kernels.cpp lines 19-147)

The C++ helper `block_idx(i, j, b) = i * b + j` flattens a `b × b` buffer; as
with the full matrix, our curried `Mat` absorbs it, so a local buffer is again
a `Mat` read only on indices below `b`. -/
/-- The helper `floyd` (kernels.cpp lines 39-59) called on three *distinct* buffers:
`C` accumulates in place while `A` and `B` keep their call values.  The loop
order is `k` outer, then `j`, then `i`. -/
def floyd (C A B : Mat) (b : Nat) : Mat :=
  loopUp (fun k C => loopUp (fun j C => loopUp (fun i C =>
    if A i k ≠ INF ∧ B k j ≠ INF then upd C i j (min (C i j) (A i k + B k j)) else C)
    b C) b C) b C

/-- The call `floyd(Wkk, Wkk, Wkk, b)` (kernels.cpp line 74): all three references
alias one vector, so each read sees the current in-place state. -/
def floydSelf (C : Mat) (b : Nat) : Mat :=
  loopUp (fun k C => loopUp (fun j C => loopUp (fun i C =>
    if C i k ≠ INF ∧ C k j ≠ INF then upd C i j (min (C i j) (C i k + C k j)) else C)
    b C) b C) b C

/-- Copy block `(bi, bj)` of `W` into a fresh `b × b` buffer
(`std::vector<int> Wkk(b * b)` zero-initializes, kernels.cpp line 68). -/
def readBlock (W : Mat) (bi bj b : Nat) : Mat :=
  loopUp (fun i Blk => loopUp (fun j Blk => upd Blk i j (W (bi * b + i) (bj * b + j))) b Blk)
    b (fun _ _ => 0)

/-- Write a `b × b` buffer back into block `(bi, bj)` of `W`
(kernels.cpp lines 77-81). -/
def writeBlock (W : Mat) (bi bj b : Nat) (Blk : Mat) : Mat :=
  loopUp (fun i W => loopUp (fun j W => upd W (bi * b + i) (bj * b + j) (Blk i j)) b W) b W

/-- One task of the row half of the partially dependent phase (kernels.cpp
lines 84-101): `Wkj_tmp` starts as a copy of block `(k, j)` and is relaxed
with the finished diagonal buffer on the left and the unmodified copy on the
right. -/
def crossRowTask (b k : Nat) (Wkk : Mat) (W : Mat) (j : Nat) : Mat :=
  if j ≠ k then writeBlock W k j b (floyd (readBlock W k j b) Wkk (readBlock W k j b) b)
  else W

/-- One task of the column half of the partially dependent phase
(kernels.cpp lines 103-120). -/
def crossColTask (b k : Nat) (Wkk : Mat) (W : Mat) (i : Nat) : Mat :=
  if i ≠ k then writeBlock W i k b (floyd (readBlock W i k b) (readBlock W i k b) Wkk b)
  else W

/-- One task of the independent phase (kernels.cpp lines 123-145): a whole
block row `i ≠ k`, relaxing each block `(i, j)`, `j ≠ k`, against the strip
blocks `(i, k)` and `(k, j)` re-read from `W`. -/
def indepTask (b B k : Nat) (W : Mat) (i : Nat) : Mat :=
  if i ≠ k then
    loopUp (fun j W =>
      if j ≠ k then
        writeBlock W i j b (floyd (readBlock W i j b) (readBlock W i k b) (readBlock W k j b) b)
      else W) B W
  else W

/-- One outer iteration `k` of `blocked_floyd_warshall`: the dependent phase
on the diagonal block, then the two parallel cross loops, then the parallel
independent loop.  `ord` gives the commit orders of the three
`#pragma omp parallel for` loops. -/
def blockedStep (b B : Nat) (ord : List Nat × List Nat × List Nat) (k : Nat) (W : Mat) : Mat :=
  let Wkk := floydSelf (readBlock W k k b) b
  let W1 := writeBlock W k k b Wkk
  let W2 := ord.1.foldl (crossRowTask b k Wkk) W1
  let W3 := ord.2.1.foldl (crossColTask b k Wkk) W2
  ord.2.2.foldl (indepTask b B k) W3

/-- The engine `blocked_floyd_warshall` (kernels.cpp lines 61-147), with `B = n / b`
outer iterations and per-iteration commit orders `sched k` for the three
parallel loops. -/
def blocked_floyd_warshall (W : Mat) (n b : Nat)
    (sched : Nat → List Nat × List Nat × List Nat) : Mat :=
  loopUp (fun k W => blockedStep b (n / b) (sched k) k W) (n / b) W

/-- State during the row half of the partially dependent phase: the diagonal
block and the row blocks `(K, j)` with `j ∈ s` hold the new recurrence values,
everything else in the square still holds the old ones. -/
def rowPhaseState (W : Mat) (n b K : Nat) (s : List Nat) : Mat :=
  fun x y => if x < n ∧ y < n then
    (if K * b ≤ x ∧ x < K * b + b ∧
        (K * b ≤ y ∧ y < K * b + b ∨ ∃ j ∈ s, j ≠ K ∧ j * b ≤ y ∧ y < j * b + b)
      then delta W (K * b + b) x y else delta W (K * b) x y)
    else W x y

/-- State during the column half: the whole row strip is done, plus the
column blocks `(i, K)` with `i ∈ s`. -/
def colPhaseState (W : Mat) (n b K : Nat) (s : List Nat) : Mat :=
  fun x y => if x < n ∧ y < n then
    (if (K * b ≤ x ∧ x < K * b + b) ∨
        (K * b ≤ y ∧ y < K * b + b ∧ ∃ i ∈ s, i ≠ K ∧ i * b ≤ x ∧ x < i * b + b)
      then delta W (K * b + b) x y else delta W (K * b) x y)
    else W x y

/-- State during the independent phase: both strips are done, plus the whole
block rows `i ∈ s`. -/
def indPhaseState (W : Mat) (n b K : Nat) (s : List Nat) : Mat :=
  fun x y => if x < n ∧ y < n then
    (if (K * b ≤ x ∧ x < K * b + b) ∨ (K * b ≤ y ∧ y < K * b + b) ∨
        (∃ i ∈ s, i ≠ K ∧ i * b ≤ x ∧ x < i * b + b)
      then delta W (K * b + b) x y else delta W (K * b) x y)
    else W x y

/-- State inside one independent-phase task `i`: like `indPhaseState`, plus
the blocks `(i, j)` with `j < j0` already relaxed. -/
def indRowState (W : Mat) (n b K : Nat) (s : List Nat) (i j0 : Nat) : Mat :=
  fun x y => if x < n ∧ y < n then
    (if (K * b ≤ x ∧ x < K * b + b) ∨ (K * b ≤ y ∧ y < K * b + b) ∨
        (∃ i' ∈ s, i' ≠ K ∧ i' * b ≤ x ∧ x < i' * b + b) ∨
        (i * b ≤ x ∧ x < i * b + b ∧ y < j0 * b)
      then delta W (K * b + b) x y else delta W (K * b) x y)
    else W x y

/-- Modelled from the spec (§4.1 wording, and for comparison with the code's
serial kernel): for outer `k = 0..n-1` in increasing order, for every `(i, j)`,
if the paths `i→k` and `k→j` are both known (neither equals the sentinel),
set `dist[i][j] = min(dist[i][j], dist[i][k] + dist[k][j])`; otherwise skip
the cell. -/
def specBody (k : Nat) (g : Mat) (i j : Nat) : Mat :=
  if g i k ≠ INF ∧ g k j ≠ INF then upd g i j (min (g i j) (g i k + g k j)) else g

/-- The spec's serial algorithm, assembled from `specBody` with the same
in-place triple loop. -/
def serialSpecAlgorithm (g : Mat) (n : Nat) : Mat :=
  loopUp (fun k g => loopUp (fun i g => loopUp (fun j g => specBody k g i j) n g) n g) n g

/-! ## The graph generator (src/src/graph.cpp lines 9-68)

`rand()` is modelled by a stream of naturals consumed two per loop iteration
(`edge[i][0] = rand() % vertices; edge[i][1] = rand() % vertices;`), and the
rejection-sampling `while (i < edges)` loop by a fuel bound: `none` models a
run of the loop that has not produced `edges` accepted samples within `fuel`
iterations.  A duplicate draw decrements and re-increments `i`, so its slot is
overwritten on the next iteration — equivalently, nothing is appended. -/
def sampleLoop (V E : Nat) (stream : Nat → Nat) :
    Nat → Nat → List (Nat × Nat) → Option (List (Nat × Nat))
  | 0, _, acc => if E ≤ acc.length then some acc else none
  | fuel + 1, c, acc =>
    if E ≤ acc.length then some acc
    else if stream c % V = stream (c + 1) % V then sampleLoop V E stream fuel (c + 2) acc
    else if (stream c % V, stream (c + 1) % V) ∈ acc then sampleLoop V E stream fuel (c + 2) acc
    else sampleLoop V E stream fuel (c + 2) (acc ++ [(stream c % V, stream (c + 1) % V)])

/-- The diagonal-initialisation double loop (graph.cpp lines 12-21): the
entry at `position = i * V + j` is zeroed exactly when `position = i * V + i`. -/
def setDiag (g : Mat) (V : Nat) : Mat :=
  loopUp (fun i g => loopUp (fun j g =>
    if i * V + j = i * V + i then upd g i j 0 else g) V g) V g

/-- Marking the accepted edges (graph.cpp lines 60-65). -/
def markEdges (g : Mat) (es : List (Nat × Nat)) : Mat :=
  es.foldl (fun g e => upd g e.1 e.2 1) g

/-- The generator `generate_linear_graph` (graph.cpp lines 9-68): zero the diagonal, then
check feasibility (returning `-1` past the maximum edge count), then sample
`E` distinct non-loop edges and mark them with weight `1`, returning `1`. -/
def generate_linear_graph (g : Mat) (V E : Nat) (stream : Nat → Nat) (fuel : Nat) :
    Option Int × Mat :=
  let g1 := setDiag g V
  if E > V * (V - 1) then (some (-1), g1)
  else
    match sampleLoop V E stream fuel 0 [] with
    | none => (none, g1)
    | some es => (some 1, markEdges g1 es)

/-! ## The command surface (src/src/main.cpp)

`main.cpp` contains its own copies of the kernels, all without the sentinel
guard (the inline sequential kernel at lines 114-124, the `collapse(2)` naive
kernel at lines 137-150, and a local unguarded `floyd` at lines 191-202 used
by its local `blocked_floyd_warshall` at lines 205-290). -/
/-- The inline sequential kernel of `main` (main.cpp lines 114-124), without
the `INF` guard ("Note: I am assuming weights are not INF"). -/
def mainSeqKernel (g : Mat) (n : Nat) : Mat :=
  loopUp (fun k g => loopUp (fun i g => loopUp (fun j g =>
    if g i j > g i k + g k j then upd g i j (g i k + g k j) else g) n g) n g) n g

/-- The inline `collapse(2)` naive kernel of `main` (main.cpp lines 137-150),
same body; modelled with the canonical commit order. -/
def mainNaiveKernel (g : Mat) (n : Nat) : Mat :=
  loopUp (fun k g => loopUp (fun i g => loopUp (fun j g =>
    if g i j > g i k + g k j then upd g i j (g i k + g k j) else g) n g) n g) n g

/-- The local unguarded `floyd` of `main.cpp` (lines 191-202), distinct buffers. -/
def floydU (C A B : Mat) (b : Nat) : Mat :=
  loopUp (fun k C => loopUp (fun j C => loopUp (fun i C =>
    upd C i j (min (C i j) (A i k + B k j))) b C) b C) b C

/-- The local unguarded `floyd` of `main.cpp` applied to three aliased references. -/
def floydSelfU (C : Mat) (b : Nat) : Mat :=
  loopUp (fun k C => loopUp (fun j C => loopUp (fun i C =>
    upd C i j (min (C i j) (C i k + C k j))) b C) b C) b C

/-- The local `blocked_floyd_warshall` of `main.cpp` (lines 205-290), canonical
commit orders. -/
def mainBlocked (W : Mat) (n b : Nat) : Mat :=
  loopUp (fun k W =>
    let Wkk := floydSelfU (readBlock W k k b) b
    let W1 := writeBlock W k k b Wkk
    let W2 := (List.range (n / b)).foldl (fun W j =>
      if j ≠ k then writeBlock W k j b (floydU (readBlock W k j b) Wkk (readBlock W k j b) b)
      else W) W1
    let W3 := (List.range (n / b)).foldl (fun W i =>
      if i ≠ k then writeBlock W i k b (floydU (readBlock W i k b) (readBlock W i k b) Wkk b)
      else W) W2
    (List.range (n / b)).foldl (fun W i =>
      if i ≠ k then
        loopUp (fun j W => if j ≠ k then
            writeBlock W i j b (floydU (readBlock W i j b) (readBlock W i k b)
              (readBlock W k j b) b)
          else W) (n / b) W
      else W) W3) (n / b) W

/-- The control flow of `main` (main.cpp lines 18-182) after CLI parsing, for
positive `vertices`, `edges`, `threads`, `tile_length`.
Faithful to the source:
* `tile_length > vertices` only logs an error (lines 56-61) — no exit;
* the thread count is clamped (lines 66-74) but affects no modelled result;
* zero selected engines exit with status 1 (lines 83-97);
* the graph buffer `std::vector<int> graph(vertices * vertices)` is
  zero-initialized (line 101);
* `if (!generate_linear_graph(...))` (line 102) converts the `int` return to
  `bool`, so the error branch is taken only on a return value of `0`, which
  `generate_linear_graph` never produces (it returns `-1` or `1`);
* exactly one engine runs (`if / else if`, lines 108-168), then exit 0.
The result is `(exit code, whether an engine ran, final graph)`; `none`
models a run whose generation loop never terminates. -/
def mainRun (runSeq runNaive runBlock : Bool) (V E tile : Nat)
    (stream : Nat → Nat) (fuel : Nat) : Option (Int × Bool × Mat) :=
  if ¬runSeq ∧ ¬runNaive ∧ ¬runBlock then some (1, false, fun _ _ => 0)
  else
    match generate_linear_graph (fun _ _ => 0) V E stream fuel with
    | (none, _) => none
    | (some r, g1) =>
      if r = 0 then some (1, false, g1)
      else
        some (0, true,
          if runSeq then mainSeqKernel g1 V
          else if runNaive then mainNaiveKernel g1 V
          else mainBlocked g1 V tile)

/-! ## The claims -/
/-- Concrete 2-vertex DenseGraph used by witnesses: one edge `0 → 1` of
weight 1, everything else unreachable. -/
def Wex : Mat := fun i j => if i = j then 0 else if i = 0 ∧ j = 1 then 1 else INF

instance (g : Mat) (n : Nat) : Decidable (ValidGraph g n) := by
  unfold ValidGraph
  infer_instance

instance (g : Mat) (n : Nat) : Decidable (Bnd g n) := by
  unfold Bnd
  infer_instance

/-- Characterize a `loopUp` through an invariant family `Q`. -/
theorem loopUp_inv {α : Type} (f : Nat → α → α) (Q : Nat → α) (m : Nat)
    (h : ∀ t, t < m → f t (Q t) = Q (t + 1)) : loopUp f m (Q 0) = Q m := by
  induction m with
  | zero => rfl
  | succ m ih =>
    have hm : loopUp f m (Q 0) = Q m := ih fun t ht => h t (Nat.lt_succ_of_lt ht)
    simp [loopUp, hm, h m (Nat.lt_succ_self m)]

theorem minTo_le_base (f : Nat → Int) (r : Nat) (a : Int) : minTo f r a ≤ a := by
  induction r with
  | zero => exact le_refl a
  | succ r ih => exact le_trans (min_le_left _ _) ih

theorem minTo_le_app (f : Nat → Int) (r : Nat) (a : Int) {t : Nat} (ht : t < r) :
    minTo f r a ≤ f t := by
  induction r with
  | zero => omega
  | succ r ih =>
    rcases Nat.lt_succ_iff_lt_or_eq.mp ht with h | h
    · exact le_trans (min_le_left _ _) (ih h)
    · subst h; exact min_le_right _ _

theorem le_minTo (f : Nat → Int) (r : Nat) (a c : Int) (ha : c ≤ a)
    (hf : ∀ t, t < r → c ≤ f t) : c ≤ minTo f r a := by
  induction r with
  | zero => exact ha
  | succ r ih =>
    exact le_min (ih fun t ht => hf t (Nat.lt_succ_of_lt ht)) (hf r (Nat.lt_succ_self r))

theorem minTo_mono (f g : Nat → Int) (r : Nat) (a b : Int) (hab : a ≤ b)
    (hfg : ∀ t, t < r → f t ≤ g t) : minTo f r a ≤ minTo g r b := by
  induction r with
  | zero => exact hab
  | succ r ih =>
    exact min_le_min (ih fun t ht => hfg t (Nat.lt_succ_of_lt ht)) (hfg r (Nat.lt_succ_self r))

theorem minTo_congr (f g : Nat → Int) (r : Nat) (a : Int)
    (h : ∀ t, t < r → f t = g t) : minTo f r a = minTo g r a := by
  induction r with
  | zero => rfl
  | succ r ih =>
    simp [minTo, ih fun t ht => h t (Nat.lt_succ_of_lt ht), h r (Nat.lt_succ_self r)]

/-- Peeling a `min` into the base of a `minTo`. -/
theorem minTo_min_base (f : Nat → Int) (r : Nat) (a b : Int) :
    minTo f r (min a b) = min (minTo f r a) b := by
  induction r with
  | zero => rfl
  | succ r ih => simp [minTo, ih, min_assoc, min_comm b (f r)]

/-- A `minTo` over a pointwise `min` splits into two `minTo`s. -/
theorem minTo_min_split (f g : Nat → Int) (r : Nat) (a : Int) :
    minTo (fun t => min (f t) (g t)) r a = min (minTo f r a) (minTo g r a) := by
  induction r with
  | zero => simp [minTo]
  | succ r ih =>
    simp only [minTo, ih]
    rw [min_assoc (minTo f r a), min_comm (minTo g r a), min_assoc, ← min_assoc,
      min_comm (g r) (minTo g r a), min_assoc (minTo f r a)]

/-- The guarded relaxation of `floyd` (kernels.cpp lines 48-55), as a value:
under the data-model bounds, skipping the update when an operand is the
sentinel is the same as an unguarded `min` on `Int`. -/
theorem guard_min_eq {a b c : Int} (ha : 0 ≤ a) (hb : 0 ≤ b) (hc : c ≤ INF) :
    (if a ≠ INF ∧ b ≠ INF then min c (a + b) else c) = min c (a + b) := by
  by_cases haI : a = INF
  · subst haI
    have : c ≤ INF + b := le_trans hc (by omega)
    simp [min_eq_left this]
  · by_cases hbI : b = INF
    · subst hbI
      have : c ≤ a + INF := le_trans hc (by omega)
      simp [min_eq_left this]
    · simp [haI, hbI]

/-- The guarded relaxation of `serial_floyd_warshall` / `naive_floyd_warshall`
(kernels.cpp lines 155-163), as a value. -/
theorem guard_serial_eq {a b c : Int} (ha : 0 ≤ a) (hb : 0 ≤ b) (hc : c ≤ INF) :
    (if c > a + b ∧ b ≠ INF ∧ a ≠ INF then a + b else c) = min c (a + b) := by
  by_cases haI : a = INF
  · subst haI
    have hle : c ≤ INF + b := le_trans hc (by omega)
    simp [min_eq_left hle]
  · by_cases hbI : b = INF
    · subst hbI
      have hle : c ≤ a + INF := le_trans hc (by omega)
      simp [min_eq_left hle]
    · by_cases hlt : c > a + b
      · simp [haI, hbI, hlt, min_eq_right (le_of_lt hlt)]
      · simp [haI, hbI, hlt, min_eq_left (not_lt.mp hlt)]

theorem delta_succ (W : Mat) (m i j : Nat) :
    delta W (m + 1) i j = min (delta W m i j) (delta W m i m + delta W m m j) := rfl

theorem delta_le_init (W : Mat) (m i j : Nat) : delta W m i j ≤ W i j := by
  induction m with
  | zero => exact le_refl _
  | succ m ih => exact le_trans (min_le_left _ _) ih

theorem delta_anti (W : Mat) {m m' : Nat} (h : m ≤ m') (i j : Nat) :
    delta W m' i j ≤ delta W m i j := by
  induction m' with
  | zero => cases Nat.le_zero.mp h; exact le_refl _
  | succ m' ih =>
    rcases Nat.le_succ_iff.mp h with h' | h'
    · exact le_trans (min_le_left _ _) (ih h')
    · subst h'; exact le_refl _

/-- Entries of the recurrence stay non-negative when the base matrix is
non-negative on the `n × n` square. -/
theorem delta_nonneg {W : Mat} {n : Nat} (hW : ∀ i j, i < n → j < n → 0 ≤ W i j)
    {m : Nat} (hm : m ≤ n) : ∀ i j, i < n → j < n → 0 ≤ delta W m i j := by
  induction m with
  | zero => exact hW
  | succ m ih =>
    intro i j hi hj
    have hmn : m < n := Nat.lt_of_lt_of_le (Nat.lt_succ_self m) hm
    have ihm := ih (Nat.le_of_lt hmn)
    exact le_min (ihm i j hi hj) (add_nonneg (ihm i m hi hmn) (ihm m j hmn hj))

/-- Adding vertex `m` as an intermediate does not change entries of row `m`
or column `m` (non-negativity rules out a negative self-loop at `m`). -/
theorem delta_row_stable {W : Mat} {n : Nat} (hW : ∀ i j, i < n → j < n → 0 ≤ W i j)
    {m : Nat} (hm : m < n) (j : Nat) (hj : j < n) :
    delta W (m + 1) m j = delta W m m j := by
  have h0 : 0 ≤ delta W m m m := delta_nonneg hW (Nat.le_of_lt hm) m m hm hm
  have : delta W m m j ≤ delta W m m m + delta W m m j := by omega
  simp [delta_succ, min_eq_left this]

theorem delta_col_stable {W : Mat} {n : Nat} (hW : ∀ i j, i < n → j < n → 0 ≤ W i j)
    {m : Nat} (hm : m < n) (i : Nat) (hi : i < n) :
    delta W (m + 1) i m = delta W m i m := by
  have h0 : 0 ≤ delta W m m m := delta_nonneg hW (Nat.le_of_lt hm) m m hm hm
  have : delta W m i m ≤ delta W m i m + delta W m m m := by omega
  simp [delta_succ, min_eq_left this]

/-- Triangle inequality of the recurrence: once `k` is available as an
intermediate vertex, going through `k` is never cheaper than the direct
entry.  Needs non-negative weights. -/
theorem delta_triangle {W : Mat} {n : Nat} (hW : ∀ i j, i < n → j < n → 0 ≤ W i j) :
    ∀ m, m ≤ n → ∀ k, k < m → ∀ i j, i < n → j < n →
      delta W m i j ≤ delta W m i k + delta W m k j := by
  intro m
  induction m with
  | zero => intro _ k hk; omega
  | succ m ih =>
    intro hm k hk i j hi hj
    have hmn : m < n := Nat.lt_of_lt_of_le (Nat.lt_succ_self m) hm
    have hmn' : m ≤ n := Nat.le_of_lt hmn
    rcases Nat.lt_succ_iff_lt_or_eq.mp hk with hkm | hkm
    · -- k < m : four cases from the two `min`s on the right.
      have hkn : k < n := Nat.lt_trans hkm hmn
      have h1 : delta W (m+1) i j ≤ delta W m i j := min_le_left _ _
      have h2 : delta W (m+1) i j ≤ delta W m i m + delta W m m j := min_le_right _ _
      have hik := ih hmn' k hkm i j hi hj
      have hikm := ih hmn' k hkm i m hi hmn
      have hkmj := ih hmn' k hkm m j hmn hj
      have hnnk : 0 ≤ delta W m m k + delta W m k m :=
        add_nonneg (delta_nonneg hW hmn' m k hmn hkn) (delta_nonneg hW hmn' k m hkn hmn)
      have l1 : delta W (m+1) i j ≤ delta W m i j := min_le_left _ _
      have l2 : delta W (m+1) i j ≤ delta W m i m + delta W m m j := min_le_right _ _
      rcases min_cases (delta W m i k) (delta W m i m + delta W m m k) with ⟨e1, -⟩ | ⟨e1, -⟩ <;>
        rcases min_cases (delta W m k j) (delta W m k m + delta W m m j) with ⟨e2, -⟩ | ⟨e2, -⟩ <;>
        rw [delta_succ W m i k, delta_succ W m k j, e1, e2] <;> omega
    · -- k = m : use stability of row/column m.
      subst hkm
      have hL : delta W (k+1) i k = delta W k i k := delta_col_stable hW hmn i hi
      have hR : delta W (k+1) k j = delta W k k j := delta_row_stable hW hmn j hj
      rw [hL, hR]
      exact min_le_right _ _

/-- Transposing the base matrix transposes the recurrence. -/
theorem delta_transpose (W : Mat) (m : Nat) :
    ∀ i j, delta (fun a b => W b a) m i j = delta W m j i := by
  induction m with
  | zero => intro i j; rfl
  | succ m ih =>
    intro i j
    simp [delta_succ, ih, add_comm]

/-- The recurrence is a fixed point on matrices satisfying the triangle
inequality (used for idempotence). -/
theorem delta_fixed {T : Mat} {n : Nat}
    (htri : ∀ k, k < n → ∀ i j, i < n → j < n → T i j ≤ T i k + T k j) :
    ∀ m, m ≤ n → ∀ i j, i < n → j < n → delta T m i j = T i j := by
  intro m
  induction m with
  | zero => intro _ i j _ _; rfl
  | succ m ih =>
    intro hm i j hi hj
    have hmn : m < n := Nat.lt_of_lt_of_le (Nat.lt_succ_self m) hm
    have hmn' : m ≤ n := Nat.le_of_lt hmn
    rw [delta_succ, ih hmn' i j hi hj, ih hmn' i m hi hmn, ih hmn' m j hmn hj,
      min_eq_left (htri m hmn i j hi hj)]

theorem minTo_add_left (f : Nat → Int) (r : Nat) (b c : Int) :
    c + minTo f r b = minTo (fun t => c + f t) r (c + b) := by
  induction r with
  | zero => rfl
  | succ r ih => simp only [minTo, ← ih]; omega

/-- Row-strip decomposition: a cheapest `u → v` path with intermediates below
`S + r` either uses no intermediate in `[S, S+r)`, or it leaves the *last*
such intermediate `S + t` and continues with intermediates below `S` only.
This is the content of the partially-dependent row phase of the blocked
kernel. -/
theorem delta_row_decomp {W : Mat} {n : Nat} (hW : ∀ i j, i < n → j < n → 0 ≤ W i j)
    (S : Nat) : ∀ r, S + r ≤ n → ∀ u v, u < n → v < n →
    delta W (S + r) u v
      = minTo (fun t => delta W (S + r) u (S + t) + delta W S (S + t) v) r
          (delta W S u v) := by
  intro r
  induction r with
  | zero => intro _ u v _ _; rfl
  | succ r ih =>
    intro hr u v hu hv
    have hSr : S + r < n := by omega
    have hSr' : S + r ≤ n := by omega
    have hle : S ≤ S + r := by omega
    apply le_antisymm
    · -- direct: triangle inequality plus monotonicity
      apply le_minTo
      · exact delta_anti W (by omega) u v
      · intro t ht
        have htn : S + t < n := by omega
        have htri := delta_triangle hW (S + (r+1)) hr (S + t) (by omega) u v hu hv
        have hmono : delta W (S + (r+1)) (S + t) v ≤ delta W S (S + t) v :=
          delta_anti W (by omega) (S + t) v
        omega
    · -- expansion of the recurrence, by induction
      have hrec : delta W (S + (r+1)) u v
          = min (delta W (S + r) u v)
              (delta W (S + r) u (S + r) + delta W (S + r) (S + r) v) := by
        have : S + (r + 1) = (S + r) + 1 := by omega
        rw [this, delta_succ]
      rw [hrec]
      apply le_min
      · -- below the old value, via the inner induction hypothesis at (u, v)
        calc minTo (fun t => delta W (S + (r+1)) u (S + t) + delta W S (S + t) v) (r+1)
              (delta W S u v)
            ≤ minTo (fun t => delta W (S + (r+1)) u (S + t) + delta W S (S + t) v) r
              (delta W S u v) := min_le_left _ _
          _ ≤ minTo (fun t => delta W (S + r) u (S + t) + delta W S (S + t) v) r
              (delta W S u v) := by
              apply minTo_mono _ _ _ _ _ (le_refl _)
              intro t ht
              have : delta W (S + (r+1)) u (S + t) ≤ delta W (S + r) u (S + t) :=
                delta_anti W (by omega) u (S + t)
              omega
          _ = delta W (S + r) u v := (ih hSr' u v hu hv).symm
      · -- below the new two-leg path, via the inner IH at (S + r, v)
        have hcol : delta W (S + (r+1)) u (S + r) = delta W (S + r) u (S + r) := by
          have h1 : S + (r+1) = (S + r) + 1 := by omega
          rw [h1]
          exact delta_col_stable hW hSr u hu
        have hmid := ih hSr' (S + r) v hSr hv
        rw [hmid, minTo_add_left]
        apply le_minTo
        · -- against the base `D(u,S+r) + delta_S (S+r) v`: the last slot of the goal
          have := minTo_le_app
            (fun t => delta W (S + (r+1)) u (S + t) + delta W S (S + t) v) (r+1)
            (delta W S u v) (Nat.lt_succ_self r)
          simp only at this
          omega
        · intro t ht
          have happ := minTo_le_app
            (fun t => delta W (S + (r+1)) u (S + t) + delta W S (S + t) v) (r+1)
            (delta W S u v) (Nat.lt_succ_of_lt ht)
          simp only at happ
          have hstep : delta W (S + (r+1)) u (S + t)
              ≤ delta W (S + r) u (S + r) + delta W (S + r) (S + r) (S + t) := by
            have h1 : S + (r+1) = (S + r) + 1 := by omega
            rw [h1, delta_succ]
            exact min_le_right _ _
          omega

/-- Column-strip decomposition, mirror image of `delta_row_decomp` (first
intermediate in `[S, S+r)` instead of last); obtained by transposition. -/
theorem delta_col_decomp {W : Mat} {n : Nat} (hW : ∀ i j, i < n → j < n → 0 ≤ W i j)
    (S : Nat) : ∀ r, S + r ≤ n → ∀ u v, u < n → v < n →
    delta W (S + r) u v
      = minTo (fun t => delta W S u (S + t) + delta W (S + r) (S + t) v) r
          (delta W S u v) := by
  intro r hr u v hu hv
  have hWT : ∀ i j, i < n → j < n → 0 ≤ (fun a b => W b a) i j := fun i j hi hj => hW j i hj hi
  have h := delta_row_decomp hWT S r hr v u hv hu
  have hbase : delta (fun a b => W b a) S v u = delta W S u v := delta_transpose W S v u
  have hL : delta (fun a b => W b a) (S + r) v u = delta W (S + r) u v :=
    delta_transpose W (S + r) v u
  rw [hbase, hL] at h
  rw [h]
  apply minTo_congr
  intro t ht
  rw [delta_transpose W (S + r) v (S + t), delta_transpose W S (S + t) u, add_comm]

/-- Independent-phase decomposition: with both strips finalized, relaxing a
remaining block against them reaches the new closure value. -/
theorem delta_ind_decomp {W : Mat} {n : Nat} (hW : ∀ i j, i < n → j < n → 0 ≤ W i j)
    (S : Nat) : ∀ r, S + r ≤ n → ∀ u v, u < n → v < n →
    delta W (S + r) u v
      = minTo (fun t => delta W (S + r) u (S + t) + delta W (S + r) (S + t) v) r
          (delta W S u v) := by
  intro r hr u v hu hv
  apply le_antisymm
  · apply le_minTo
    · exact delta_anti W (by omega) u v
    · intro t ht
      exact delta_triangle hW (S + r) hr (S + t) (by omega) u v hu hv
  · rw [delta_row_decomp hW S r hr u v hu hv]
    apply minTo_mono _ _ _ _ _ (le_refl _)
    intro t ht
    have : delta W (S + r) (S + t) v ≤ delta W S (S + t) v := delta_anti W (by omega) (S + t) v
    omega

theorem upd_hit (g : Mat) (i j : Nat) (v : Int) : upd g i j v i j = v := by
  simp [upd]

theorem upd_miss (g : Mat) (i j : Nat) (v : Int) {x y : Nat} (h : ¬(x = i ∧ y = j)) :
    upd g i j v x y = g x y := by
  simp [upd, h]

theorem loopUp_congr {α : Type} (f f' : Nat → α → α) (m : Nat) (a : α)
    (h : ∀ t x, f t x = f' t x) : loopUp f m a = loopUp f' m a := by
  induction m with
  | zero => rfl
  | succ m ih => simp [loopUp, ih, h]

theorem loopUp_eq_foldl_range {α : Type} (f : Nat → α → α) (m : Nat) (a : α) :
    loopUp f m a = (List.range m).foldl (fun x t => f t x) a := by
  induction m with
  | zero => rfl
  | succ m ih => rw [List.range_succ, List.foldl_append]; simp [loopUp, ih]

theorem ValidGraph.bnd {g : Mat} {n : Nat} (h : ValidGraph g n) : Bnd g n := by
  intro i hi j hj
  rcases h.2 i hi j hj with hI | ⟨h0, hI⟩
  · rw [hI]; constructor
    · simp [INF]
    · exact le_refl _
  · exact ⟨h0, le_of_lt hI⟩

theorem Bnd.nonneg {g : Mat} {n : Nat} (h : Bnd g n) :
    ∀ i j, i < n → j < n → 0 ≤ g i j := fun i j hi hj => (h i hi j hj).1

theorem snap_row_stable {g : Mat} {n k : Nat} (hB : Bnd g n) (hk : k < n) (y : Nat) :
    snapMat g k k y = g k y := by
  have h0 : 0 ≤ g k k := (hB k hk k hk).1
  have : g k y ≤ g k k + g k y := by omega
  simp [snapMat, min_eq_left this]

theorem snap_col_stable {g : Mat} {n k : Nat} (hB : Bnd g n) (hk : k < n) (x : Nat) :
    snapMat g k x k = g x k := by
  have h0 : 0 ≤ g k k := (hB k hk k hk).1
  have : g x k ≤ g x k + g k k := by omega
  simp [snapMat, min_eq_left this]

theorem snapMat_le_left (g : Mat) (k x y : Nat) : snapMat g k x y ≤ g x y :=
  min_le_left _ _

/-- The guarded relaxation, written as an unconditional `upd` with a `min`. -/
theorem fwBody_eq_upd {k : Nat} {M : Mat} {i j : Nat} (hA : 0 ≤ M i k) (hB : 0 ≤ M k j)
    (hC : M i j ≤ INF) :
    fwBody k M i j = upd M i j (min (M i j) (M i k + M k j)) := by
  have hval := guard_serial_eq hA hB hC
  funext x y
  by_cases hxy : x = i ∧ y = j
  · obtain ⟨rfl, rfl⟩ := hxy
    unfold fwBody
    split
    · rename_i hcond
      rw [upd_hit, upd_hit, ← hval, if_pos hcond]
    · rename_i hcond
      rw [upd_hit, ← hval, if_neg hcond]
  · unfold fwBody
    split
    · rw [upd_miss _ _ _ _ hxy, upd_miss _ _ _ _ hxy]
    · rw [upd_miss _ _ _ _ hxy]

theorem rowPartial_zero (g : Mat) (n k : Nat) (s : List Nat) (i : Nat) :
    rowPartial g n k s i 0 = rowsDone g n k s := by
  funext x y
  unfold rowPartial rowsDone
  by_cases hx : x ∈ s <;> simp [hx]

theorem rowPartial_last (g : Mat) (n k : Nat) (s : List Nat) (i : Nat) :
    rowPartial g n k s i n = rowsDone g n k (i :: s) := by
  funext x y
  unfold rowPartial rowsDone
  by_cases hs : x ∈ s <;> by_cases hx : x = i <;>
    by_cases hyn : y < n <;> simp [hs, hx, hyn, List.mem_cons]

/-- One inner-loop step of a pass: relaxing cell `(i, j)` moves the partial
state one column forward.  All operands of the guarded update are read at
their pass-initial values (rows `k` and columns `k` are stable because of
non-negativity), which is what makes the parallel fan-out well defined. -/
theorem rowPartial_step {g : Mat} {n k : Nat} (hB : Bnd g n) (hk : k < n)
    (s : List Nat) {i j : Nat} (hi : i < n) (hj : j < n) :
    fwBody k (rowPartial g n k s i j) i j = rowPartial g n k s i (j + 1) := by
  set M := rowPartial g n k s i j with hM
  have hMik : M i k = g i k := by
    rw [hM]
    unfold rowPartial
    split
    · exact snap_col_stable hB hk i
    · rfl
  have hMkj : M k j = g k j := by
    rw [hM]
    unfold rowPartial
    split
    · exact snap_row_stable hB hk j
    · rfl
  have hMij : M i j = if i ∈ s then snapMat g k i j else g i j := by
    rw [hM]
    unfold rowPartial
    by_cases hs : i ∈ s <;> simp [hs, hi, hj]
  have hA : 0 ≤ M i k := by rw [hMik]; exact (hB i hi k hk).1
  have hBle : 0 ≤ M k j := by rw [hMkj]; exact (hB k hk j hj).1
  have hC : M i j ≤ INF := by
    rw [hMij]
    split
    · exact le_trans (snapMat_le_left g k i j) (hB i hi j hj).2
    · exact (hB i hi j hj).2
  rw [fwBody_eq_upd hA hBle hC]
  have hval : min (M i j) (M i k + M k j) = snapMat g k i j := by
    rw [hMik, hMkj, hMij]
    by_cases hs : i ∈ s
    · rw [if_pos hs]
      exact min_eq_left (min_le_right _ _)
    · rw [if_neg hs]; rfl
  rw [hval]
  funext x y
  by_cases hxy : x = i ∧ y = j
  · obtain ⟨rfl, rfl⟩ := hxy
    rw [upd_hit]
    unfold rowPartial
    rw [if_pos ⟨Or.inr ⟨rfl, Nat.lt_succ_self _⟩, hi, hj⟩]
  · rw [upd_miss _ _ _ _ hxy, hM]
    unfold rowPartial
    have hcond : ((x ∈ s ∨ x = i ∧ y < j) ∧ x < n ∧ y < n)
        ↔ ((x ∈ s ∨ x = i ∧ y < j + 1) ∧ x < n ∧ y < n) := by
      constructor
      · rintro ⟨hc, hb⟩
        exact ⟨hc.imp id (fun h => ⟨h.1, Nat.lt_succ_of_lt h.2⟩), hb⟩
      · rintro ⟨hc, hb⟩
        refine ⟨hc.imp id (fun h => ⟨h.1, ?_⟩), hb⟩
        rcases Nat.lt_succ_iff_lt_or_eq.mp h.2 with h' | h'
        · exact h'
        · exact absurd ⟨h.1, h'⟩ hxy
    rw [if_congr hcond rfl rfl]

/-- A full row task relaxes one more row of the pass. -/
theorem naiveTask_rowsDone {g : Mat} {n k : Nat} (hB : Bnd g n) (hk : k < n)
    (s : List Nat) {i : Nat} (hi : i < n) :
    naiveTask k n (rowsDone g n k s) i = rowsDone g n k (i :: s) := by
  unfold naiveTask
  rw [← rowPartial_zero g n k s i, ← rowPartial_last g n k s i]
  exact loopUp_inv _ (rowPartial g n k s i) n
    fun j hj => rowPartial_step hB hk s hi hj

theorem rowsDone_congr (g : Mat) (n k : Nat) (s s' : List Nat)
    (h : ∀ x, x ∈ s ↔ x ∈ s') : rowsDone g n k s = rowsDone g n k s' := by
  funext x y
  unfold rowsDone
  rw [if_congr (by rw [h x]) rfl rfl]

/-- Folding any selection of row tasks relaxes exactly those rows. -/
theorem foldl_naiveTask (g : Mat) (n k : Nat) (hB : Bnd g n) (hk : k < n) :
    ∀ (l s : List Nat), (∀ x ∈ l, x < n) →
    l.foldl (naiveTask k n) (rowsDone g n k s) = rowsDone g n k (l.reverse ++ s) := by
  intro l
  induction l with
  | nil => intro s _; simp
  | cons a t ih =>
    intro s hl
    have ha : a < n := hl a (List.mem_cons_self a t)
    have ht : ∀ x ∈ t, x < n := fun x hx => hl x (List.mem_cons_of_mem a hx)
    rw [List.foldl_cons, naiveTask_rowsDone hB hk s ha, ih (a :: s) ht]
    apply rowsDone_congr
    intro x
    simp only [List.mem_reverse, List.mem_cons, List.mem_append]
    tauto

/-- A complete pass over any permutation of the row range equals the snapshot
update: this is the determinism core for the naive engine. -/
theorem pass_perm {g : Mat} {n k : Nat} (hB : Bnd g n) (hk : k < n)
    {l : List Nat} (hl : l.Perm (List.range n)) :
    l.foldl (naiveTask k n) g =
      fun x y => if x < n ∧ y < n then snapMat g k x y else g x y := by
  have hmem : ∀ x, x ∈ l ↔ x < n := by
    intro x
    rw [hl.mem_iff, List.mem_range]
  have hbase : rowsDone g n k [] = g := by
    funext x y
    simp [rowsDone]
  have hfold := foldl_naiveTask g n k hB hk l [] (fun x hx => (hmem x).mp hx)
  rw [hbase] at hfold
  rw [hfold]
  funext x y
  unfold rowsDone
  by_cases hb : x < n ∧ y < n
  · rw [if_pos ⟨List.mem_append.mpr (Or.inl (List.mem_reverse.mpr ((hmem x).mpr hb.1))), hb⟩,
      if_pos hb]
  · rw [if_neg (fun h => hb h.2), if_neg hb]

theorem deltaState_zero (W : Mat) (n : Nat) : deltaState W n 0 = W := by
  funext x y
  unfold deltaState
  by_cases hb : x < n ∧ y < n <;> simp [hb, delta]

theorem deltaState_bnd {W : Mat} {n : Nat} (hB : Bnd W n) {m : Nat} (hm : m ≤ n) :
    Bnd (deltaState W n m) n := by
  intro i hi j hj
  unfold deltaState
  rw [if_pos ⟨hi, hj⟩]
  constructor
  · exact delta_nonneg (Bnd.nonneg hB) hm i j hi hj
  · exact le_trans (delta_le_init W m i j) (hB i hi j hj).2

/-- One outer iteration of the naive engine advances the recurrence state. -/
theorem naive_pass_delta {W : Mat} {n k : Nat} (hB : Bnd W n) (hk : k < n)
    {l : List Nat} (hl : l.Perm (List.range n)) :
    l.foldl (naiveTask k n) (deltaState W n k) = deltaState W n (k + 1) := by
  have hBk : Bnd (deltaState W n k) n := deltaState_bnd hB (Nat.le_of_lt hk)
  rw [pass_perm hBk hk hl]
  funext x y
  by_cases hb : x < n ∧ y < n
  · rw [if_pos hb]
    unfold snapMat deltaState
    rw [if_pos hb, if_pos ⟨hb.1, hk⟩, if_pos ⟨hk, hb.2⟩, if_pos hb]
    rfl
  · rw [if_neg hb]
    unfold deltaState
    rw [if_neg hb, if_neg hb]

/-- The naive-parallel engine computes the Floyd-Warshall recurrence on the
`n × n` square (and leaves everything else untouched), for every commit
order of its parallel row tasks. -/
theorem naive_eq_delta {W : Mat} {n : Nat} {sched : Nat → List Nat} (hB : Bnd W n)
    (hs : ∀ k, (sched k).Perm (List.range n)) :
    naive_floyd_warshall W n sched = deltaState W n n := by
  unfold naive_floyd_warshall
  conv_lhs => rw [← deltaState_zero W n]
  exact loopUp_inv (fun k g => (sched k).foldl (naiveTask k n) g) (deltaState W n) n
    fun k hk => naive_pass_delta hB hk (hs k)

/-- The serial engine is the naive engine with the canonical task order. -/
theorem serial_eq_naive_range (W : Mat) (n : Nat) :
    serial_floyd_warshall W n = naive_floyd_warshall W n (fun _ => List.range n) := by
  unfold serial_floyd_warshall naive_floyd_warshall
  apply loopUp_congr
  intro k g
  exact loopUp_eq_foldl_range (fun i g => naiveTask k n g i) n g

/-- The serial engine computes the Floyd-Warshall recurrence. -/
theorem serial_eq_delta {W : Mat} {n : Nat} (hB : Bnd W n) :
    serial_floyd_warshall W n = deltaState W n n := by
  rw [serial_eq_naive_range]
  exact naive_eq_delta hB fun k => List.Perm.refl _

theorem loopUp_inv2 {α : Type} (f : Nat → α → α) (Q : Nat → α) (m : Nat) (a : α)
    (h0 : Q 0 = a) (h : ∀ t, t < m → f t (Q t) = Q (t + 1)) : loopUp f m a = Q m := by
  rw [← h0]
  exact loopUp_inv f Q m h

theorem readRow_eval (M : Mat) (i b : Nat) (v : Nat → Int) :
    loopUp (fun j Blk => upd Blk i j (v j)) b M
      = fun x y => if x = i ∧ y < b then v y else M x y := by
  apply loopUp_inv2 (fun j Blk => upd Blk i j (v j))
    (fun j => fun x y => if x = i ∧ y < j then v y else M x y) b M
  · funext x y; simp
  · intro t ht
    show upd (fun x y => if x = i ∧ y < t then v y else M x y) i t (v t) = _
    funext x y
    by_cases hxy : x = i ∧ y = t
    · obtain ⟨rfl, rfl⟩ := hxy
      rw [upd_hit, if_pos ⟨rfl, Nat.lt_succ_self y⟩]
    · rw [upd_miss _ _ _ _ hxy]
      have hiff : (x = i ∧ y < t) ↔ (x = i ∧ y < t + 1) := by
        constructor
        · exact fun h => ⟨h.1, Nat.lt_succ_of_lt h.2⟩
        · rintro ⟨rfl, hy⟩
          rcases Nat.lt_succ_iff_lt_or_eq.mp hy with h' | h'
          · exact ⟨rfl, h'⟩
          · exact absurd ⟨rfl, h'⟩ hxy
      rw [if_congr hiff rfl rfl]

theorem readBlock_eval (W : Mat) (bi bj b : Nat) :
    readBlock W bi bj b
      = fun x y => if x < b ∧ y < b then W (bi * b + x) (bj * b + y) else 0 := by
  unfold readBlock
  apply loopUp_inv2 _
    (fun i0 => fun x y => if x < i0 ∧ y < b then W (bi * b + x) (bj * b + y) else 0) b _
  · funext x y; simp
  · intro t ht
    show loopUp (fun j Blk => upd Blk t j (W (bi * b + t) (bj * b + j))) b
      (fun x y => if x < t ∧ y < b then W (bi * b + x) (bj * b + y) else 0) = _
    rw [readRow_eval]
    funext x y
    by_cases hx : x = t
    · subst hx
      by_cases hy : y < b
      · simp [hy]
      · simp [hy]
    · have h1 : ¬(x = t ∧ y < b) := fun h => hx h.1
      rw [if_neg h1]
      have h2 : (x < t ∧ y < b) ↔ (x < t + 1 ∧ y < b) := by
        constructor
        · exact fun h => ⟨Nat.lt_succ_of_lt h.1, h.2⟩
        · rintro ⟨h', hy⟩
          rcases Nat.lt_succ_iff_lt_or_eq.mp h' with h'' | h''
          · exact ⟨h'', hy⟩
          · exact absurd h'' hx
      rw [if_congr h2 rfl rfl]

theorem writeRow_eval (M : Mat) (R c0 b : Nat) (v : Nat → Int) :
    loopUp (fun j M => upd M R (c0 + j) (v j)) b M
      = fun x y => if x = R ∧ c0 ≤ y ∧ y < c0 + b then v (y - c0) else M x y := by
  apply loopUp_inv2 (fun j M => upd M R (c0 + j) (v j))
    (fun j => fun x y => if x = R ∧ c0 ≤ y ∧ y < c0 + j then v (y - c0) else M x y) b M
  · funext x y
    have : ¬(x = R ∧ c0 ≤ y ∧ y < c0 + 0) := by rintro ⟨_, h1, h2⟩; omega
    rw [if_neg this]
  · intro t ht
    show upd (fun x y => if x = R ∧ c0 ≤ y ∧ y < c0 + t then v (y - c0) else M x y)
      R (c0 + t) (v t) = _
    funext x y
    by_cases hxy : x = R ∧ y = c0 + t
    · obtain ⟨rfl, rfl⟩ := hxy
      rw [upd_hit, if_pos ⟨rfl, by omega, by omega⟩]
      congr 1
      omega
    · rw [upd_miss _ _ _ _ hxy]
      have hiff : (x = R ∧ c0 ≤ y ∧ y < c0 + t) ↔ (x = R ∧ c0 ≤ y ∧ y < c0 + (t + 1)) := by
        constructor
        · rintro ⟨rfl, h1, h2⟩; exact ⟨rfl, h1, by omega⟩
        · rintro ⟨rfl, h1, h2⟩
          refine ⟨rfl, h1, ?_⟩
          rcases Nat.lt_or_ge y (c0 + t) with h' | h'
          · exact h'
          · exact absurd ⟨rfl, by omega⟩ hxy
      rw [if_congr hiff rfl rfl]

theorem writeBlock_eval (W : Mat) (bi bj b : Nat) (Blk : Mat) :
    writeBlock W bi bj b Blk
      = fun x y => if bi * b ≤ x ∧ x < bi * b + b ∧ bj * b ≤ y ∧ y < bj * b + b
          then Blk (x - bi * b) (y - bj * b) else W x y := by
  unfold writeBlock
  apply loopUp_inv2 _
    (fun i0 => fun x y => if bi * b ≤ x ∧ x < bi * b + i0 ∧ bj * b ≤ y ∧ y < bj * b + b
      then Blk (x - bi * b) (y - bj * b) else W x y) b _
  · funext x y
    have : ¬(bi * b ≤ x ∧ x < bi * b + 0 ∧ bj * b ≤ y ∧ y < bj * b + b) := by
      rintro ⟨h1, h2, _⟩; omega
    rw [if_neg this]
  · intro t ht
    show loopUp (fun j M => upd M (bi * b + t) (bj * b + j) (Blk t j)) b
      (fun x y => if bi * b ≤ x ∧ x < bi * b + t ∧ bj * b ≤ y ∧ y < bj * b + b
        then Blk (x - bi * b) (y - bj * b) else W x y) = _
    rw [writeRow_eval]
    funext x y
    by_cases hx : x = bi * b + t
    · subst hx
      by_cases hy : bj * b ≤ y ∧ y < bj * b + b
      · rw [if_pos ⟨rfl, hy.1, hy.2⟩, if_pos ⟨by omega, by omega, hy.1, hy.2⟩]
        congr 1
        omega
      · have h1 : ¬(bi * b + t = bi * b + t ∧ bj * b ≤ y ∧ y < bj * b + b) := by
          rintro ⟨_, h2, h3⟩; exact hy ⟨h2, h3⟩
        rw [if_neg h1]
        have h2 : ¬(bi * b ≤ bi * b + t ∧ bi * b + t < bi * b + t ∧ bj * b ≤ y ∧ y < bj * b + b) := by
          rintro ⟨_, h3, _⟩; omega
        have h3 : ¬(bi * b ≤ bi * b + t ∧ bi * b + t < bi * b + (t + 1)
            ∧ bj * b ≤ y ∧ y < bj * b + b) := by
          rintro ⟨_, _, h4, h5⟩; exact hy ⟨h4, h5⟩
        rw [if_neg h2, if_neg h3]
    · have h1 : ¬(x = bi * b + t ∧ bj * b ≤ y ∧ y < bj * b + b) := fun h => hx h.1
      rw [if_neg h1]
      have h2 : (bi * b ≤ x ∧ x < bi * b + t ∧ bj * b ≤ y ∧ y < bj * b + b)
          ↔ (bi * b ≤ x ∧ x < bi * b + (t + 1) ∧ bj * b ≤ y ∧ y < bj * b + b) := by
        constructor
        · rintro ⟨h3, h4, h5⟩; exact ⟨h3, by omega, h5⟩
        · rintro ⟨h3, h4, h5, h6⟩
          refine ⟨h3, ?_, h5, h6⟩
          rcases Nat.lt_or_ge x (bi * b + t) with h' | h'
          · exact h'
          · exact absurd (by omega : x = bi * b + t) hx
      rw [if_congr h2 rfl rfl]

theorem guardBody_eq_upd {M : Mat} {i j : Nat} {a c : Int} (ha : 0 ≤ a) (hc : 0 ≤ c)
    (hM : M i j ≤ INF) :
    (if a ≠ INF ∧ c ≠ INF then upd M i j (min (M i j) (a + c)) else M)
      = upd M i j (min (M i j) (a + c)) := by
  have hval := guard_min_eq ha hc hM
  split
  · rfl
  · rename_i hg
    rw [if_neg hg] at hval
    funext x y
    by_cases hxy : x = i ∧ y = j
    · obtain ⟨rfl, rfl⟩ := hxy
      rw [upd_hit, ← hval]
    · rw [upd_miss _ _ _ _ hxy]

/-- Running `floyd` on distinct buffers just accumulates, for each cell, the minimum
over all `b` rounds of `A[x][t] + B[t][y]` against the starting value: since
`A` and `B` are frozen, the rounds do not interact. -/
theorem floyd_eval {b : Nat} (C A B : Mat)
    (hA : ∀ x t, x < b → t < b → 0 ≤ A x t)
    (hB : ∀ t y, t < b → y < b → 0 ≤ B t y)
    (hC : ∀ x y, x < b → y < b → C x y ≤ INF) :
    floyd C A B b = fun x y => if x < b ∧ y < b
      then minTo (fun t => A x t + B t y) b (C x y) else C x y := by
  unfold floyd
  apply loopUp_inv2 _
    (fun k => fun x y => if x < b ∧ y < b
      then minTo (fun t => A x t + B t y) k (C x y) else C x y) b _
  · funext x y
    by_cases hxy : x < b ∧ y < b <;> simp [hxy, minTo]
  · intro k hk
    have hround : ∀ j0, j0 ≤ b → loopUp (fun j C' => loopUp (fun i C' =>
        if A i k ≠ INF ∧ B k j ≠ INF then upd C' i j (min (C' i j) (A i k + B k j)) else C')
        b C') j0
        (fun x y => if x < b ∧ y < b
          then minTo (fun t => A x t + B t y) k (C x y) else C x y)
        = fun x y => if y < j0 ∧ x < b ∧ y < b
            then minTo (fun t => A x t + B t y) (k + 1) (C x y)
            else if x < b ∧ y < b then minTo (fun t => A x t + B t y) k (C x y) else C x y := by
      intro j0
      induction j0 with
      | zero =>
        intro _
        funext x y
        simp only [loopUp]
        split_ifs <;> first | rfl | omega
      | succ j ihj =>
        intro hj1
        have hj : j < b := by omega
        simp only [loopUp]
        rw [ihj (by omega)]
        have hinner : ∀ i0, i0 ≤ b → loopUp (fun i C' =>
            if A i k ≠ INF ∧ B k j ≠ INF then upd C' i j (min (C' i j) (A i k + B k j)) else C')
            i0
            (fun x y => if y < j ∧ x < b ∧ y < b
              then minTo (fun t => A x t + B t y) (k + 1) (C x y)
              else if x < b ∧ y < b then minTo (fun t => A x t + B t y) k (C x y) else C x y)
            = fun x y => if (y < j ∨ (y = j ∧ x < i0)) ∧ x < b ∧ y < b
                then minTo (fun t => A x t + B t y) (k + 1) (C x y)
                else if x < b ∧ y < b then minTo (fun t => A x t + B t y) k (C x y)
                  else C x y := by
          intro i0
          induction i0 with
          | zero =>
            intro _
            funext x y
            simp only [loopUp]
            split_ifs <;> first | rfl | omega
          | succ i ihi =>
            intro hi1
            have hi : i < b := by omega
            simp only [loopUp]
            rw [ihi (by omega)]
            set M : Mat := fun x y => if (y < j ∨ (y = j ∧ x < i)) ∧ x < b ∧ y < b
              then minTo (fun t => A x t + B t y) (k + 1) (C x y)
              else if x < b ∧ y < b then minTo (fun t => A x t + B t y) k (C x y)
                else C x y with hMdef
            have hMij : M i j = minTo (fun t => A i t + B t j) k (C i j) := by
              rw [hMdef]
              simp only
              rw [if_neg (by rintro ⟨h1 | h1, _⟩ <;> omega), if_pos ⟨hi, hj⟩]
            have hMle : M i j ≤ INF := by
              rw [hMij]
              exact le_trans (minTo_le_base _ _ _) (hC i j hi hj)
            rw [guardBody_eq_upd (hA i k hi hk) (hB k j hk hj) hMle]
            funext x y
            by_cases hxy : x = i ∧ y = j
            · obtain ⟨rfl, rfl⟩ := hxy
              rw [upd_hit, hMij, if_pos ⟨Or.inr ⟨rfl, Nat.lt_succ_self x⟩, hi, hj⟩]
              rfl
            · rw [upd_miss _ _ _ _ hxy, hMdef]
              simp only
              split_ifs <;> first | rfl | omega
        rw [hinner b (le_refl b)]
        funext x y
        split_ifs <;> first | rfl | omega
    have h := hround b (le_refl b)
    rw [h]
    funext x y
    split_ifs <;> first | rfl | omega

/-- One in-place round (fixed `k`) of the aliased `floyd(Wkk, Wkk, Wkk, b)`
call equals the snapshot update: row `k` and column `k` of the buffer do not
move during the round, because a non-negative `C[k][k]` makes their updates
no-ops. -/
theorem selfPass_eval {g : Mat} {b k : Nat} (hg : Bnd g b) (hk : k < b) :
    loopUp (fun j C' => loopUp (fun i C' =>
      if C' i k ≠ INF ∧ C' k j ≠ INF then upd C' i j (min (C' i j) (C' i k + C' k j)) else C')
      b C') b g
    = fun x y => if x < b ∧ y < b then snapMat g k x y else g x y := by
  have hround : ∀ j0, j0 ≤ b → loopUp (fun j C' => loopUp (fun i C' =>
      if C' i k ≠ INF ∧ C' k j ≠ INF then upd C' i j (min (C' i j) (C' i k + C' k j)) else C')
      b C') j0 g
      = fun x y => if y < j0 ∧ x < b ∧ y < b then snapMat g k x y else g x y := by
    intro j0
    induction j0 with
    | zero =>
      intro _
      funext x y
      simp only [loopUp]
      split_ifs <;> first | rfl | omega
    | succ j ihj =>
      intro hj1
      have hj : j < b := by omega
      simp only [loopUp]
      rw [ihj (by omega)]
      have hinner : ∀ i0, i0 ≤ b → loopUp (fun i C' =>
          if C' i k ≠ INF ∧ C' k j ≠ INF then upd C' i j (min (C' i j) (C' i k + C' k j)) else C')
          i0
          (fun x y => if y < j ∧ x < b ∧ y < b then snapMat g k x y else g x y)
          = fun x y => if (y < j ∨ (y = j ∧ x < i0)) ∧ x < b ∧ y < b
              then snapMat g k x y else g x y := by
        intro i0
        induction i0 with
        | zero =>
          intro _
          funext x y
          simp only [loopUp]
          split_ifs <;> first | rfl | omega
        | succ i ihi =>
          intro hi1
          have hi : i < b := by omega
          simp only [loopUp]
          rw [ihi (by omega)]
          set M : Mat := fun x y => if (y < j ∨ (y = j ∧ x < i)) ∧ x < b ∧ y < b
            then snapMat g k x y else g x y with hMdef
          have hMik : M i k = g i k := by
            rw [hMdef]
            simp only
            split_ifs with h
            · exact snap_col_stable hg hk i
            · rfl
          have hMkj : M k j = g k j := by
            rw [hMdef]
            simp only
            split_ifs with h
            · exact snap_row_stable hg hk j
            · rfl
          have hMij : M i j = g i j := by
            rw [hMdef]
            simp only
            rw [if_neg (by rintro ⟨h1 | h1, _⟩ <;> omega)]
          have hMle : M i j ≤ INF := by rw [hMij]; exact (hg i hi j hj).2
          rw [guardBody_eq_upd (hMik ▸ (hg i hi k hk).1) (hMkj ▸ (hg k hk j hj).1) hMle]
          rw [hMik, hMkj, hMij]
          funext x y
          by_cases hxy : x = i ∧ y = j
          · obtain ⟨rfl, rfl⟩ := hxy
            rw [upd_hit, if_pos ⟨Or.inr ⟨rfl, Nat.lt_succ_self x⟩, hi, hj⟩]
            rfl
          · rw [upd_miss _ _ _ _ hxy, hMdef]
            simp only
            split_ifs <;> first | rfl | omega
      rw [hinner b (le_refl b)]
      funext x y
      split_ifs <;> first | rfl | omega
  rw [hround b (le_refl b)]
  funext x y
  split_ifs <;> first | rfl | omega

/-- The aliased diagonal call computes the full `b`-vertex Floyd-Warshall
closure of the buffer. -/
theorem floydSelf_eval {b : Nat} (C : Mat) (hC : Bnd C b) :
    floydSelf C b = deltaState C b b := by
  unfold floydSelf
  apply loopUp_inv2 _ (deltaState C b) b _
  · exact deltaState_zero C b
  · intro k hk
    have hBk : Bnd (deltaState C b k) b := deltaState_bnd hC (Nat.le_of_lt hk)
    show loopUp (fun j C' => loopUp (fun i C' =>
      if C' i k ≠ INF ∧ C' k j ≠ INF then upd C' i j (min (C' i j) (C' i k + C' k j)) else C')
      b C') b (deltaState C b k) = _
    rw [selfPass_eval hBk hk]
    funext x y
    by_cases hxy : x < b ∧ y < b
    · rw [if_pos hxy]
      unfold snapMat deltaState
      rw [if_pos hxy, if_pos ⟨hxy.1, hk⟩, if_pos ⟨hk, hxy.2⟩, if_pos hxy]
      rfl
    · rw [if_neg hxy]
      unfold deltaState
      rw [if_neg hxy, if_neg hxy]

/-! ## Block coordinate arithmetic -/
theorem block_cell_lt {K x b B n : Nat} (hn : n = B * b) (hK : K < B) (hx : x < b) :
    K * b + x < n := by
  have h1 : (K + 1) * b ≤ B * b := Nat.mul_le_mul_right b hK
  rw [Nat.succ_mul] at h1
  omega

theorem blocks_disjoint {b j K y : Nat} (hjK : j ≠ K) (hy : y < b) :
    ¬(K * b ≤ j * b + y ∧ j * b + y < K * b + b) := by
  rcases Nat.lt_or_ge j K with h | h
  · have h1 : (j + 1) * b ≤ K * b := Nat.mul_le_mul_right b h
    rw [Nat.succ_mul] at h1
    omega
  · have h' : K < j := by omega
    have h1 : (K + 1) * b ≤ j * b := Nat.mul_le_mul_right b h'
    rw [Nat.succ_mul] at h1
    omega

theorem block_cover {y n b B : Nat} (hb : 0 < b) (hn : n = B * b) (hy : y < n) :
    ∃ j, j < B ∧ j * b ≤ y ∧ y < j * b + b := by
  refine ⟨y / b, ?_, ?_, ?_⟩
  · rw [Nat.div_lt_iff_lt_mul hb]
    omega
  · exact Nat.div_mul_le_self y b
  · have h1 := Nat.div_add_mod y b
    have h2 := Nat.mod_lt y hb
    have h3 : y / b * b = b * (y / b) := Nat.mul_comm _ _
    omega

/-! ## The blocked engine equals the recurrence

Throughout, `S := K * b` is the first global index of outer block `K`, and the
running invariant is that before iteration `K` the matrix is
`deltaState W n (K * b)`. -/
/-- The diagonal block of the invariant state, copied out, is the recurrence
with intermediates below `S`; running the block-local closure on it yields
the recurrence with intermediates below `S + b` (local intermediate `t`
is global intermediate `S + t`). -/
theorem delta_local_diag (W : Mat) (S b : Nat) :
    ∀ r, r ≤ b → ∀ x y, x < b → y < b →
    delta (fun u v => if u < b ∧ v < b then delta W S (S + u) (S + v) else 0) r x y
      = delta W (S + r) (S + x) (S + y) := by
  intro r
  induction r with
  | zero =>
    intro _ x y hx hy
    show (if x < b ∧ y < b then delta W S (S + x) (S + y) else 0) = delta W S (S + x) (S + y)
    rw [if_pos ⟨hx, hy⟩]
  | succ r ih =>
    intro hr x y hx hy
    have hrb : r < b := by omega
    have hr' : r ≤ b := by omega
    rw [delta_succ, ih hr' x y hx hy, ih hr' x r hx hrb, ih hr' r y hrb hy]
    have : S + (r + 1) = (S + r) + 1 := by omega
    rw [this, delta_succ]

/-- The diagonal-phase buffer holds the new recurrence values of the diagonal
block. -/
theorem Wkk_eval {W : Mat} {n b B K : Nat} (hW : Bnd W n) (hn : n = B * b) (hK : K < B) :
    ∀ x y, x < b → y < b →
    floydSelf (readBlock (deltaState W n (K * b)) K K b) b x y
      = delta W (K * b + b) (K * b + x) (K * b + y) := by
  intro x y hx hy
  have hL : readBlock (deltaState W n (K * b)) K K b
      = fun u v => if u < b ∧ v < b then delta W (K * b) (K * b + u) (K * b + v) else 0 := by
    rw [readBlock_eval]
    funext u v
    by_cases huv : u < b ∧ v < b
    · rw [if_pos huv, if_pos huv]
      unfold deltaState
      rw [if_pos ⟨block_cell_lt hn hK huv.1, block_cell_lt hn hK huv.2⟩]
    · rw [if_neg huv, if_neg huv]
  have hBndL : Bnd (readBlock (deltaState W n (K * b)) K K b) b := by
    rw [hL]
    intro u hu v hv
    simp only [if_pos (And.intro hu hv)]
    constructor
    · exact delta_nonneg (Bnd.nonneg hW)
        (by have h1 : K * b ≤ B * b := Nat.mul_le_mul_right b (le_of_lt hK); omega)
        _ _ (block_cell_lt hn hK hu) (block_cell_lt hn hK hv)
    · exact le_trans (delta_le_init _ _ _ _)
        (hW _ (block_cell_lt hn hK hu) _ (block_cell_lt hn hK hv)).2
  rw [floydSelf_eval _ hBndL, hL]
  unfold deltaState
  rw [if_pos ⟨hx, hy⟩]
  exact delta_local_diag W (K * b) b b (le_refl b) x y hx hy

/-- Writing the finished diagonal buffer back yields the empty row-phase
state. -/
theorem diag_write {W : Mat} {n b B K : Nat} (hW : Bnd W n) (hn : n = B * b) (hK : K < B) :
    writeBlock (deltaState W n (K * b)) K K b
        (floydSelf (readBlock (deltaState W n (K * b)) K K b) b)
      = rowPhaseState W n b K [] := by
  rw [writeBlock_eval]
  funext x y
  by_cases hblk : K * b ≤ x ∧ x < K * b + b ∧ K * b ≤ y ∧ y < K * b + b
  · rw [if_pos hblk]
    obtain ⟨h1, h2, h3, h4⟩ := hblk
    rw [Wkk_eval hW hn hK _ _ (by omega) (by omega)]
    have hx : K * b + (x - K * b) = x := by omega
    have hy : K * b + (y - K * b) = y := by omega
    rw [hx, hy]
    unfold rowPhaseState
    have hxn : x < n := by
      have := block_cell_lt (x := x - K * b) hn hK (by omega)
      omega
    have hyn : y < n := by
      have := block_cell_lt (x := y - K * b) hn hK (by omega)
      omega
    rw [if_pos ⟨hxn, hyn⟩, if_pos ⟨h1, h2, Or.inl ⟨h3, h4⟩⟩]
  · rw [if_neg hblk]
    unfold deltaState rowPhaseState
    by_cases hsq : x < n ∧ y < n
    · rw [if_pos hsq, if_pos hsq]
      have hc : ¬(K * b ≤ x ∧ x < K * b + b ∧
          (K * b ≤ y ∧ y < K * b + b ∨ ∃ j ∈ ([] : List Nat), j ≠ K ∧ j * b ≤ y ∧ y < j * b + b)) := by
        rintro ⟨h1, h2, h3 | ⟨j, hj, _⟩⟩
        · exact hblk ⟨h1, h2, h3⟩
        · exact absurd hj (List.not_mem_nil j)
      rw [if_neg hc]
    · rw [if_neg hsq, if_neg hsq]

/-- One row-phase task: relaxing block `(K, j)` against the finished diagonal
buffer produces the new recurrence values on that block
(`delta_row_decomp` is exactly the phase's correctness). -/
theorem crossRowTask_eval {W : Mat} {n b B K : Nat} {Wkk : Mat} (hW : Bnd W n)
    (hn : n = B * b) (hK : K < B)
    (hWkk : ∀ x y, x < b → y < b → Wkk x y = delta W (K * b + b) (K * b + x) (K * b + y))
    (s : List Nat) {j : Nat} (hj : j < B) (hjs : j ∉ s) :
    crossRowTask b K Wkk (rowPhaseState W n b K s) j = rowPhaseState W n b K (j :: s) := by
  have hSb : K * b + b ≤ n := by
    have h1 : (K + 1) * b ≤ B * b := Nat.mul_le_mul_right b hK
    rw [Nat.succ_mul] at h1
    omega
  unfold crossRowTask
  by_cases hjK : j ≠ K
  · rw [if_pos hjK]
    have hRead : readBlock (rowPhaseState W n b K s) K j b
        = fun u v => if u < b ∧ v < b then delta W (K * b) (K * b + u) (j * b + v) else 0 := by
      rw [readBlock_eval]
      funext u v
      by_cases huv : u < b ∧ v < b
      · rw [if_pos huv, if_pos huv]
        unfold rowPhaseState
        rw [if_pos ⟨block_cell_lt hn hK huv.1, block_cell_lt hn hj huv.2⟩]
        have hcond : ¬(K * b ≤ K * b + u ∧ K * b + u < K * b + b ∧
            (K * b ≤ j * b + v ∧ j * b + v < K * b + b ∨
              ∃ j' ∈ s, j' ≠ K ∧ j' * b ≤ j * b + v ∧ j * b + v < j' * b + b)) := by
          rintro ⟨-, -, hdiag | ⟨j', hj's, -, hj'1, hj'2⟩⟩
          · exact blocks_disjoint hjK huv.2 hdiag
          · by_cases hj'j : j' = j
            · subst hj'j; exact hjs hj's
            · exact blocks_disjoint (Ne.symm hj'j) huv.2 ⟨hj'1, hj'2⟩
        rw [if_neg hcond]
      · rw [if_neg huv, if_neg huv]
    have hFl : ∀ u v, u < b → v < b →
        floyd (readBlock (rowPhaseState W n b K s) K j b) Wkk
          (readBlock (rowPhaseState W n b K s) K j b) b u v
          = delta W (K * b + b) (K * b + u) (j * b + v) := by
      intro u v hu hv
      rw [floyd_eval _ _ _ ?_ ?_ ?_]
      · simp only [if_pos (And.intro hu hv)]
        rw [hRead]
        simp only [if_pos (And.intro hu hv)]
        have hcg : minTo (fun t => Wkk u t +
            (if t < b ∧ v < b then delta W (K * b) (K * b + t) (j * b + v) else 0)) b
            (delta W (K * b) (K * b + u) (j * b + v))
            = minTo (fun t => delta W (K * b + b) (K * b + u) (K * b + t) +
              delta W (K * b) (K * b + t) (j * b + v)) b
              (delta W (K * b) (K * b + u) (j * b + v)) := by
          apply minTo_congr
          intro t ht
          rw [hWkk u t hu ht, if_pos ⟨ht, hv⟩]
        rw [hcg]
        exact (delta_row_decomp (Bnd.nonneg hW) (K * b) b hSb (K * b + u) (j * b + v)
          (block_cell_lt hn hK hu) (block_cell_lt hn hj hv)).symm
      · intro x t hx ht
        rw [hWkk x t hx ht]
        exact delta_nonneg (Bnd.nonneg hW) hSb _ _ (block_cell_lt hn hK hx)
          (block_cell_lt hn hK ht)
      · intro t y ht hy
        rw [hRead]
        simp only [if_pos (And.intro ht hy)]
        exact delta_nonneg (Bnd.nonneg hW) (by omega) _ _ (block_cell_lt hn hK ht)
          (block_cell_lt hn hj hy)
      · intro x y hx hy
        rw [hRead]
        simp only [if_pos (And.intro hx hy)]
        exact le_trans (delta_le_init _ _ _ _)
          (hW _ (block_cell_lt hn hK hx) _ (block_cell_lt hn hj hy)).2
    rw [writeBlock_eval]
    funext x y
    by_cases hblk : K * b ≤ x ∧ x < K * b + b ∧ j * b ≤ y ∧ y < j * b + b
    · rw [if_pos hblk]
      obtain ⟨h1, h2, h3, h4⟩ := hblk
      rw [hFl _ _ (by omega) (by omega)]
      have hx : K * b + (x - K * b) = x := by omega
      have hy : j * b + (y - j * b) = y := by omega
      rw [hx, hy]
      unfold rowPhaseState
      have hxn : x < n := by have := block_cell_lt (x := x - K * b) hn hK (by omega); omega
      have hyn : y < n := by have := block_cell_lt (x := y - j * b) hn hj (by omega); omega
      rw [if_pos ⟨hxn, hyn⟩,
        if_pos ⟨h1, h2, Or.inr ⟨j, List.mem_cons_self j s, hjK, h3, h4⟩⟩]
    · rw [if_neg hblk]
      unfold rowPhaseState
      by_cases hsq : x < n ∧ y < n
      · rw [if_pos hsq, if_pos hsq]
        have hcond : (K * b ≤ x ∧ x < K * b + b ∧
            (K * b ≤ y ∧ y < K * b + b ∨ ∃ j' ∈ s, j' ≠ K ∧ j' * b ≤ y ∧ y < j' * b + b))
            ↔ (K * b ≤ x ∧ x < K * b + b ∧
            (K * b ≤ y ∧ y < K * b + b ∨ ∃ j' ∈ j :: s, j' ≠ K ∧ j' * b ≤ y ∧ y < j' * b + b)) := by
          constructor
          · rintro ⟨h1, h2, h3 | ⟨j', hm, hp⟩⟩
            · exact ⟨h1, h2, Or.inl h3⟩
            · exact ⟨h1, h2, Or.inr ⟨j', List.mem_cons_of_mem j hm, hp⟩⟩
          · rintro ⟨h1, h2, h3 | ⟨j', hm, hp⟩⟩
            · exact ⟨h1, h2, Or.inl h3⟩
            · rcases List.mem_cons.mp hm with rfl | hm'
              · exact absurd ⟨h1, h2, hp.2.1, hp.2.2⟩ hblk
              · exact ⟨h1, h2, Or.inr ⟨j', hm', hp⟩⟩
        rw [if_congr hcond rfl rfl]
      · rw [if_neg hsq, if_neg hsq]
  · rw [if_neg hjK]
    have hjK' : j = K := by omega
    subst hjK'
    funext x y
    unfold rowPhaseState
    by_cases hsq : x < n ∧ y < n
    · rw [if_pos hsq, if_pos hsq]
      have hcond : (j * b ≤ x ∧ x < j * b + b ∧
          (j * b ≤ y ∧ y < j * b + b ∨ ∃ j' ∈ s, j' ≠ j ∧ j' * b ≤ y ∧ y < j' * b + b))
          ↔ (j * b ≤ x ∧ x < j * b + b ∧
          (j * b ≤ y ∧ y < j * b + b ∨ ∃ j' ∈ j :: s, j' ≠ j ∧ j' * b ≤ y ∧ y < j' * b + b)) := by
        constructor
        · rintro ⟨h1, h2, h3 | ⟨j', hm, hp⟩⟩
          · exact ⟨h1, h2, Or.inl h3⟩
          · exact ⟨h1, h2, Or.inr ⟨j', List.mem_cons_of_mem j hm, hp⟩⟩
        · rintro ⟨h1, h2, h3 | ⟨j', hm, hp⟩⟩
          · exact ⟨h1, h2, Or.inl h3⟩
          · rcases List.mem_cons.mp hm with rfl | hm'
            · exact absurd rfl hp.1
            · exact ⟨h1, h2, Or.inr ⟨j', hm', hp⟩⟩
      rw [if_congr hcond rfl rfl]
    · rw [if_neg hsq, if_neg hsq]

theorem rowPhaseState_congr (W : Mat) (n b K : Nat) (s s' : List Nat)
    (h : ∀ x, x ∈ s ↔ x ∈ s') : rowPhaseState W n b K s = rowPhaseState W n b K s' := by
  funext x y
  unfold rowPhaseState
  by_cases hsq : x < n ∧ y < n
  · rw [if_pos hsq, if_pos hsq]
    have hcond : (K * b ≤ x ∧ x < K * b + b ∧
        (K * b ≤ y ∧ y < K * b + b ∨ ∃ j' ∈ s, j' ≠ K ∧ j' * b ≤ y ∧ y < j' * b + b))
        ↔ (K * b ≤ x ∧ x < K * b + b ∧
        (K * b ≤ y ∧ y < K * b + b ∨ ∃ j' ∈ s', j' ≠ K ∧ j' * b ≤ y ∧ y < j' * b + b)) := by
      constructor
      · rintro ⟨h1, h2, h3 | ⟨j', hm, hp⟩⟩
        · exact ⟨h1, h2, Or.inl h3⟩
        · exact ⟨h1, h2, Or.inr ⟨j', (h j').mp hm, hp⟩⟩
      · rintro ⟨h1, h2, h3 | ⟨j', hm, hp⟩⟩
        · exact ⟨h1, h2, Or.inl h3⟩
        · exact ⟨h1, h2, Or.inr ⟨j', (h j').mpr hm, hp⟩⟩
    rw [if_congr hcond rfl rfl]
  · rw [if_neg hsq, if_neg hsq]

theorem rowPhase_fold {W : Mat} {n b B K : Nat} {Wkk : Mat} (hW : Bnd W n)
    (hn : n = B * b) (hK : K < B)
    (hWkk : ∀ x y, x < b → y < b → Wkk x y = delta W (K * b + b) (K * b + x) (K * b + y)) :
    ∀ (l s : List Nat), l.Nodup → (∀ x ∈ l, x < B) → (∀ x ∈ l, x ∉ s) →
    l.foldl (crossRowTask b K Wkk) (rowPhaseState W n b K s)
      = rowPhaseState W n b K (l.reverse ++ s) := by
  intro l
  induction l with
  | nil => intro s _ _ _; simp
  | cons a t ih =>
    intro s hnd hlt hout
    have hnd' := List.nodup_cons.mp hnd
    rw [List.foldl_cons,
      crossRowTask_eval hW hn hK hWkk s (hlt a (List.mem_cons_self a t))
        (hout a (List.mem_cons_self a t)),
      ih (a :: s) hnd'.2 (fun x hx => hlt x (List.mem_cons_of_mem a hx))
        (fun x hx => by
          intro hmem
          rcases List.mem_cons.mp hmem with rfl | hmem'
          · exact hnd'.1 hx
          · exact hout x (List.mem_cons_of_mem a hx) hmem')]
    apply rowPhaseState_congr
    intro x
    simp only [List.mem_reverse, List.mem_cons, List.mem_append]
    tauto

/-- After the row phase the whole row strip holds the new values. -/
theorem rowPhase_to_col {W : Mat} {n b B K : Nat} (hb : 0 < b) (hn : n = B * b)
    {s : List Nat} (hs : ∀ j', j' < B → j' ∈ s) :
    rowPhaseState W n b K s = colPhaseState W n b K [] := by
  funext x y
  unfold rowPhaseState colPhaseState
  by_cases hsq : x < n ∧ y < n
  · rw [if_pos hsq, if_pos hsq]
    have hcond : (K * b ≤ x ∧ x < K * b + b ∧
        (K * b ≤ y ∧ y < K * b + b ∨ ∃ j' ∈ s, j' ≠ K ∧ j' * b ≤ y ∧ y < j' * b + b))
        ↔ ((K * b ≤ x ∧ x < K * b + b) ∨
          (K * b ≤ y ∧ y < K * b + b ∧ ∃ i ∈ ([] : List Nat), i ≠ K ∧ i * b ≤ x ∧ x < i * b + b)) := by
      constructor
      · rintro ⟨h1, h2, -⟩
        exact Or.inl ⟨h1, h2⟩
      · rintro (⟨h1, h2⟩ | ⟨-, -, i, hi, -⟩)
        · refine ⟨h1, h2, ?_⟩
          obtain ⟨j0, hj0B, hj01, hj02⟩ := block_cover hb hn hsq.2
          by_cases hj0K : j0 = K
          · subst hj0K; exact Or.inl ⟨hj01, hj02⟩
          · exact Or.inr ⟨j0, hs j0 hj0B, hj0K, hj01, hj02⟩
        · exact absurd hi (List.not_mem_nil i)
    rw [if_congr hcond rfl rfl]
  · rw [if_neg hsq, if_neg hsq]

/-- One column-phase task: relaxing block `(i, K)` against the diagonal
buffer on the right (`delta_col_decomp`). -/
theorem crossColTask_eval {W : Mat} {n b B K : Nat} {Wkk : Mat} (hW : Bnd W n)
    (hn : n = B * b) (hK : K < B)
    (hWkk : ∀ x y, x < b → y < b → Wkk x y = delta W (K * b + b) (K * b + x) (K * b + y))
    (s : List Nat) {i : Nat} (hi : i < B) (his : i ∉ s) :
    crossColTask b K Wkk (colPhaseState W n b K s) i = colPhaseState W n b K (i :: s) := by
  have hSb : K * b + b ≤ n := by
    have h1 : (K + 1) * b ≤ B * b := Nat.mul_le_mul_right b hK
    rw [Nat.succ_mul] at h1
    omega
  unfold crossColTask
  by_cases hiK : i ≠ K
  · rw [if_pos hiK]
    have hRead : readBlock (colPhaseState W n b K s) i K b
        = fun u v => if u < b ∧ v < b then delta W (K * b) (i * b + u) (K * b + v) else 0 := by
      rw [readBlock_eval]
      funext u v
      by_cases huv : u < b ∧ v < b
      · rw [if_pos huv, if_pos huv]
        unfold colPhaseState
        rw [if_pos ⟨block_cell_lt hn hi huv.1, block_cell_lt hn hK huv.2⟩]
        have hcond : ¬((K * b ≤ i * b + u ∧ i * b + u < K * b + b) ∨
            (K * b ≤ K * b + v ∧ K * b + v < K * b + b ∧
              ∃ i' ∈ s, i' ≠ K ∧ i' * b ≤ i * b + u ∧ i * b + u < i' * b + b)) := by
          rintro (hdiag | ⟨-, -, i', hi's, -, hi'1, hi'2⟩)
          · exact blocks_disjoint hiK huv.1 hdiag
          · by_cases hi'i : i' = i
            · subst hi'i; exact his hi's
            · exact blocks_disjoint (Ne.symm hi'i) huv.1 ⟨hi'1, hi'2⟩
        rw [if_neg hcond]
      · rw [if_neg huv, if_neg huv]
    have hFl : ∀ u v, u < b → v < b →
        floyd (readBlock (colPhaseState W n b K s) i K b)
          (readBlock (colPhaseState W n b K s) i K b) Wkk b u v
          = delta W (K * b + b) (i * b + u) (K * b + v) := by
      intro u v hu hv
      rw [floyd_eval _ _ _ ?_ ?_ ?_]
      · simp only [if_pos (And.intro hu hv)]
        rw [hRead]
        simp only [if_pos (And.intro hu hv)]
        have hcg : minTo (fun t =>
            (if u < b ∧ t < b then delta W (K * b) (i * b + u) (K * b + t) else 0) + Wkk t v) b
            (delta W (K * b) (i * b + u) (K * b + v))
            = minTo (fun t => delta W (K * b) (i * b + u) (K * b + t) +
              delta W (K * b + b) (K * b + t) (K * b + v)) b
              (delta W (K * b) (i * b + u) (K * b + v)) := by
          apply minTo_congr
          intro t ht
          rw [hWkk t v ht hv, if_pos ⟨hu, ht⟩]
        rw [hcg]
        exact (delta_col_decomp (Bnd.nonneg hW) (K * b) b hSb (i * b + u) (K * b + v)
          (block_cell_lt hn hi hu) (block_cell_lt hn hK hv)).symm
      · intro x t hx ht
        rw [hRead]
        simp only [if_pos (And.intro hx ht)]
        exact delta_nonneg (Bnd.nonneg hW) (by omega) _ _ (block_cell_lt hn hi hx)
          (block_cell_lt hn hK ht)
      · intro t y ht hy
        rw [hWkk t y ht hy]
        exact delta_nonneg (Bnd.nonneg hW) hSb _ _ (block_cell_lt hn hK ht)
          (block_cell_lt hn hK hy)
      · intro x y hx hy
        rw [hRead]
        simp only [if_pos (And.intro hx hy)]
        exact le_trans (delta_le_init _ _ _ _)
          (hW _ (block_cell_lt hn hi hx) _ (block_cell_lt hn hK hy)).2
    rw [writeBlock_eval]
    funext x y
    by_cases hblk : i * b ≤ x ∧ x < i * b + b ∧ K * b ≤ y ∧ y < K * b + b
    · rw [if_pos hblk]
      obtain ⟨h1, h2, h3, h4⟩ := hblk
      rw [hFl _ _ (by omega) (by omega)]
      have hx : i * b + (x - i * b) = x := by omega
      have hy : K * b + (y - K * b) = y := by omega
      rw [hx, hy]
      unfold colPhaseState
      have hxn : x < n := by have := block_cell_lt (x := x - i * b) hn hi (by omega); omega
      have hyn : y < n := by have := block_cell_lt (x := y - K * b) hn hK (by omega); omega
      rw [if_pos ⟨hxn, hyn⟩,
        if_pos (Or.inr ⟨h3, h4, i, List.mem_cons_self i s, hiK, h1, h2⟩)]
    · rw [if_neg hblk]
      unfold colPhaseState
      by_cases hsq : x < n ∧ y < n
      · rw [if_pos hsq, if_pos hsq]
        have hcond : ((K * b ≤ x ∧ x < K * b + b) ∨
            (K * b ≤ y ∧ y < K * b + b ∧ ∃ i' ∈ s, i' ≠ K ∧ i' * b ≤ x ∧ x < i' * b + b))
            ↔ ((K * b ≤ x ∧ x < K * b + b) ∨
            (K * b ≤ y ∧ y < K * b + b ∧ ∃ i' ∈ i :: s, i' ≠ K ∧ i' * b ≤ x ∧ x < i' * b + b)) := by
          constructor
          · rintro (h1 | ⟨h1, h2, i', hm, hp⟩)
            · exact Or.inl h1
            · exact Or.inr ⟨h1, h2, i', List.mem_cons_of_mem i hm, hp⟩
          · rintro (h1 | ⟨h1, h2, i', hm, hp⟩)
            · exact Or.inl h1
            · rcases List.mem_cons.mp hm with rfl | hm'
              · exact absurd ⟨hp.2.1, hp.2.2, h1, h2⟩ hblk
              · exact Or.inr ⟨h1, h2, i', hm', hp⟩
        rw [if_congr hcond rfl rfl]
      · rw [if_neg hsq, if_neg hsq]
  · rw [if_neg hiK]
    have hiK' : i = K := by omega
    subst hiK'
    funext x y
    unfold colPhaseState
    by_cases hsq : x < n ∧ y < n
    · rw [if_pos hsq, if_pos hsq]
      have hcond : ((i * b ≤ x ∧ x < i * b + b) ∨
          (i * b ≤ y ∧ y < i * b + b ∧ ∃ i' ∈ s, i' ≠ i ∧ i' * b ≤ x ∧ x < i' * b + b))
          ↔ ((i * b ≤ x ∧ x < i * b + b) ∨
          (i * b ≤ y ∧ y < i * b + b ∧ ∃ i' ∈ i :: s, i' ≠ i ∧ i' * b ≤ x ∧ x < i' * b + b)) := by
        constructor
        · rintro (h1 | ⟨h1, h2, i', hm, hp⟩)
          · exact Or.inl h1
          · exact Or.inr ⟨h1, h2, i', List.mem_cons_of_mem i hm, hp⟩
        · rintro (h1 | ⟨h1, h2, i', hm, hp⟩)
          · exact Or.inl h1
          · rcases List.mem_cons.mp hm with rfl | hm'
            · exact absurd rfl hp.1
            · exact Or.inr ⟨h1, h2, i', hm', hp⟩
      rw [if_congr hcond rfl rfl]
    · rw [if_neg hsq, if_neg hsq]

theorem colPhaseState_congr (W : Mat) (n b K : Nat) (s s' : List Nat)
    (h : ∀ x, x ∈ s ↔ x ∈ s') : colPhaseState W n b K s = colPhaseState W n b K s' := by
  funext x y
  unfold colPhaseState
  by_cases hsq : x < n ∧ y < n
  · rw [if_pos hsq, if_pos hsq]
    have hcond : ((K * b ≤ x ∧ x < K * b + b) ∨
        (K * b ≤ y ∧ y < K * b + b ∧ ∃ i ∈ s, i ≠ K ∧ i * b ≤ x ∧ x < i * b + b))
        ↔ ((K * b ≤ x ∧ x < K * b + b) ∨
        (K * b ≤ y ∧ y < K * b + b ∧ ∃ i ∈ s', i ≠ K ∧ i * b ≤ x ∧ x < i * b + b)) := by
      constructor
      · rintro (h1 | ⟨h1, h2, i, hm, hp⟩)
        · exact Or.inl h1
        · exact Or.inr ⟨h1, h2, i, (h i).mp hm, hp⟩
      · rintro (h1 | ⟨h1, h2, i, hm, hp⟩)
        · exact Or.inl h1
        · exact Or.inr ⟨h1, h2, i, (h i).mpr hm, hp⟩
    rw [if_congr hcond rfl rfl]
  · rw [if_neg hsq, if_neg hsq]

theorem colPhase_fold {W : Mat} {n b B K : Nat} {Wkk : Mat} (hW : Bnd W n)
    (hn : n = B * b) (hK : K < B)
    (hWkk : ∀ x y, x < b → y < b → Wkk x y = delta W (K * b + b) (K * b + x) (K * b + y)) :
    ∀ (l s : List Nat), l.Nodup → (∀ x ∈ l, x < B) → (∀ x ∈ l, x ∉ s) →
    l.foldl (crossColTask b K Wkk) (colPhaseState W n b K s)
      = colPhaseState W n b K (l.reverse ++ s) := by
  intro l
  induction l with
  | nil => intro s _ _ _; simp
  | cons a t ih =>
    intro s hnd hlt hout
    have hnd' := List.nodup_cons.mp hnd
    rw [List.foldl_cons,
      crossColTask_eval hW hn hK hWkk s (hlt a (List.mem_cons_self a t))
        (hout a (List.mem_cons_self a t)),
      ih (a :: s) hnd'.2 (fun x hx => hlt x (List.mem_cons_of_mem a hx))
        (fun x hx => by
          intro hmem
          rcases List.mem_cons.mp hmem with rfl | hmem'
          · exact hnd'.1 hx
          · exact hout x (List.mem_cons_of_mem a hx) hmem')]
    apply colPhaseState_congr
    intro x
    simp only [List.mem_reverse, List.mem_cons, List.mem_append]
    tauto

/-- After the column phase both strips hold the new values. -/
theorem colPhase_to_ind {W : Mat} {n b B K : Nat} (hb : 0 < b) (hn : n = B * b)
    {s : List Nat} (hs : ∀ i', i' < B → i' ∈ s) :
    colPhaseState W n b K s = indPhaseState W n b K [] := by
  funext x y
  unfold colPhaseState indPhaseState
  by_cases hsq : x < n ∧ y < n
  · rw [if_pos hsq, if_pos hsq]
    have hcond : ((K * b ≤ x ∧ x < K * b + b) ∨
        (K * b ≤ y ∧ y < K * b + b ∧ ∃ i ∈ s, i ≠ K ∧ i * b ≤ x ∧ x < i * b + b))
        ↔ ((K * b ≤ x ∧ x < K * b + b) ∨ (K * b ≤ y ∧ y < K * b + b) ∨
          ∃ i ∈ ([] : List Nat), i ≠ K ∧ i * b ≤ x ∧ x < i * b + b) := by
      constructor
      · rintro (h1 | ⟨h1, h2, -⟩)
        · exact Or.inl h1
        · exact Or.inr (Or.inl ⟨h1, h2⟩)
      · rintro (h1 | ⟨h1, h2⟩ | ⟨i, hi, -⟩)
        · exact Or.inl h1
        · obtain ⟨i0, hi0B, hi01, hi02⟩ := block_cover hb hn hsq.1
          by_cases hi0K : i0 = K
          · subst hi0K; exact Or.inl ⟨hi01, hi02⟩
          · exact Or.inr ⟨h1, h2, i0, hs i0 hi0B, hi0K, hi01, hi02⟩
        · exact absurd hi (List.not_mem_nil i)
    rw [if_congr hcond rfl rfl]
  · rw [if_neg hsq, if_neg hsq]

/-- One inner step of an independent-phase task: block `(i, j0)` relaxed
against the two finished strip blocks (`delta_ind_decomp`). -/
theorem indInner_step {W : Mat} {n b B K : Nat} (hW : Bnd W n)
    (hn : n = B * b) (hK : K < B) (s : List Nat) {i : Nat} (hi : i < B) (hiK : i ≠ K)
    (his : i ∉ s) {j0 : Nat} (hj0 : j0 < B) :
    (if j0 ≠ K then
        writeBlock (indRowState W n b K s i j0) i j0 b
          (floyd (readBlock (indRowState W n b K s i j0) i j0 b)
            (readBlock (indRowState W n b K s i j0) i K b)
            (readBlock (indRowState W n b K s i j0) K j0 b) b)
      else indRowState W n b K s i j0)
      = indRowState W n b K s i (j0 + 1) := by
  have hSb : K * b + b ≤ n := by
    have h1 : (K + 1) * b ≤ B * b := Nat.mul_le_mul_right b hK
    rw [Nat.succ_mul] at h1
    omega
  by_cases hj0K : j0 ≠ K
  · rw [if_pos hj0K]
    set M := indRowState W n b K s i j0 with hMdef
    have hMin : ∀ x y, x < n → y < n → M x y
        = if (K * b ≤ x ∧ x < K * b + b) ∨ (K * b ≤ y ∧ y < K * b + b) ∨
            (∃ i' ∈ s, i' ≠ K ∧ i' * b ≤ x ∧ x < i' * b + b) ∨
            (i * b ≤ x ∧ x < i * b + b ∧ y < j0 * b)
          then delta W (K * b + b) x y else delta W (K * b) x y := by
      intro x y hx hy
      rw [hMdef]
      unfold indRowState
      rw [if_pos ⟨hx, hy⟩]
    have hWij : readBlock M i j0 b
        = fun u v => if u < b ∧ v < b then delta W (K * b) (i * b + u) (j0 * b + v) else 0 := by
      rw [readBlock_eval]
      funext u v
      by_cases huv : u < b ∧ v < b
      · rw [if_pos huv, if_pos huv,
          hMin _ _ (block_cell_lt hn hi huv.1) (block_cell_lt hn hj0 huv.2)]
        have hcond : ¬((K * b ≤ i * b + u ∧ i * b + u < K * b + b) ∨
            (K * b ≤ j0 * b + v ∧ j0 * b + v < K * b + b) ∨
            (∃ i' ∈ s, i' ≠ K ∧ i' * b ≤ i * b + u ∧ i * b + u < i' * b + b) ∨
            (i * b ≤ i * b + u ∧ i * b + u < i * b + b ∧ j0 * b + v < j0 * b)) := by
          rintro (h1 | h1 | ⟨i', hm, -, hp1, hp2⟩ | ⟨-, -, h1⟩)
          · exact blocks_disjoint hiK huv.1 h1
          · exact blocks_disjoint hj0K huv.2 h1
          · by_cases hii' : i' = i
            · subst hii'; exact his hm
            · exact blocks_disjoint (Ne.symm hii') huv.1 ⟨hp1, hp2⟩
          · omega
        rw [if_neg hcond]
      · rw [if_neg huv, if_neg huv]
    have hWik : readBlock M i K b
        = fun u v => if u < b ∧ v < b then delta W (K * b + b) (i * b + u) (K * b + v) else 0 := by
      rw [readBlock_eval]
      funext u v
      by_cases huv : u < b ∧ v < b
      · rw [if_pos huv, if_pos huv,
          hMin _ _ (block_cell_lt hn hi huv.1) (block_cell_lt hn hK huv.2)]
        rw [if_pos (Or.inr (Or.inl ⟨by omega, by omega⟩))]
      · rw [if_neg huv, if_neg huv]
    have hWkj : readBlock M K j0 b
        = fun u v => if u < b ∧ v < b then delta W (K * b + b) (K * b + u) (j0 * b + v) else 0 := by
      rw [readBlock_eval]
      funext u v
      by_cases huv : u < b ∧ v < b
      · rw [if_pos huv, if_pos huv,
          hMin _ _ (block_cell_lt hn hK huv.1) (block_cell_lt hn hj0 huv.2)]
        rw [if_pos (Or.inl ⟨by omega, by omega⟩)]
      · rw [if_neg huv, if_neg huv]
    have hFl : ∀ u v, u < b → v < b →
        floyd (readBlock M i j0 b) (readBlock M i K b) (readBlock M K j0 b) b u v
          = delta W (K * b + b) (i * b + u) (j0 * b + v) := by
      intro u v hu hv
      rw [floyd_eval _ _ _ ?_ ?_ ?_]
      · simp only [if_pos (And.intro hu hv)]
        rw [hWij, hWik, hWkj]
        simp only [if_pos (And.intro hu hv)]
        have hcg : minTo (fun t =>
            (if u < b ∧ t < b then delta W (K * b + b) (i * b + u) (K * b + t) else 0) +
            (if t < b ∧ v < b then delta W (K * b + b) (K * b + t) (j0 * b + v) else 0)) b
            (delta W (K * b) (i * b + u) (j0 * b + v))
            = minTo (fun t => delta W (K * b + b) (i * b + u) (K * b + t) +
              delta W (K * b + b) (K * b + t) (j0 * b + v)) b
              (delta W (K * b) (i * b + u) (j0 * b + v)) := by
          apply minTo_congr
          intro t ht
          rw [if_pos ⟨hu, ht⟩, if_pos ⟨ht, hv⟩]
        rw [hcg]
        exact (delta_ind_decomp (Bnd.nonneg hW) (K * b) b hSb (i * b + u) (j0 * b + v)
          (block_cell_lt hn hi hu) (block_cell_lt hn hj0 hv)).symm
      · intro x t hx ht
        rw [hWik]
        simp only [if_pos (And.intro hx ht)]
        exact delta_nonneg (Bnd.nonneg hW) hSb _ _ (block_cell_lt hn hi hx)
          (block_cell_lt hn hK ht)
      · intro t y ht hy
        rw [hWkj]
        simp only [if_pos (And.intro ht hy)]
        exact delta_nonneg (Bnd.nonneg hW) hSb _ _ (block_cell_lt hn hK ht)
          (block_cell_lt hn hj0 hy)
      · intro x y hx hy
        rw [hWij]
        simp only [if_pos (And.intro hx hy)]
        exact le_trans (delta_le_init _ _ _ _)
          (hW _ (block_cell_lt hn hi hx) _ (block_cell_lt hn hj0 hy)).2
    rw [writeBlock_eval]
    funext x y
    by_cases hblk : i * b ≤ x ∧ x < i * b + b ∧ j0 * b ≤ y ∧ y < j0 * b + b
    · rw [if_pos hblk]
      obtain ⟨h1, h2, h3, h4⟩ := hblk
      rw [hFl _ _ (by omega) (by omega)]
      have hx : i * b + (x - i * b) = x := by omega
      have hy : j0 * b + (y - j0 * b) = y := by omega
      rw [hx, hy]
      unfold indRowState
      have hxn : x < n := by have := block_cell_lt (x := x - i * b) hn hi (by omega); omega
      have hyn : y < n := by have := block_cell_lt (x := y - j0 * b) hn hj0 (by omega); omega
      rw [if_pos ⟨hxn, hyn⟩]
      have hy1 : y < (j0 + 1) * b := by rw [Nat.succ_mul]; omega
      rw [if_pos (Or.inr (Or.inr (Or.inr ⟨h1, h2, hy1⟩)))]
    · rw [if_neg hblk]
      by_cases hsq : x < n ∧ y < n
      · rw [hMin x y hsq.1 hsq.2]
        unfold indRowState
        rw [if_pos hsq]
        have hstep : (j0 + 1) * b = j0 * b + b := Nat.succ_mul j0 b
        have hcond : ((K * b ≤ x ∧ x < K * b + b) ∨ (K * b ≤ y ∧ y < K * b + b) ∨
            (∃ i' ∈ s, i' ≠ K ∧ i' * b ≤ x ∧ x < i' * b + b) ∨
            (i * b ≤ x ∧ x < i * b + b ∧ y < j0 * b))
            ↔ ((K * b ≤ x ∧ x < K * b + b) ∨ (K * b ≤ y ∧ y < K * b + b) ∨
            (∃ i' ∈ s, i' ≠ K ∧ i' * b ≤ x ∧ x < i' * b + b) ∨
            (i * b ≤ x ∧ x < i * b + b ∧ y < (j0 + 1) * b)) := by
          constructor
          · rintro (h | h | h | ⟨h1, h2, h3⟩)
            · exact Or.inl h
            · exact Or.inr (Or.inl h)
            · exact Or.inr (Or.inr (Or.inl h))
            · exact Or.inr (Or.inr (Or.inr ⟨h1, h2, by omega⟩))
          · rintro (h | h | h | ⟨h1, h2, h3⟩)
            · exact Or.inl h
            · exact Or.inr (Or.inl h)
            · exact Or.inr (Or.inr (Or.inl h))
            · rcases Nat.lt_or_ge y (j0 * b) with h' | h'
              · exact Or.inr (Or.inr (Or.inr ⟨h1, h2, h'⟩))
              · exact absurd ⟨h1, h2, h', by omega⟩ hblk
        rw [if_congr hcond rfl rfl]
      · rw [hMdef]
        unfold indRowState
        rw [if_neg hsq, if_neg hsq]
  · rw [if_neg hj0K]
    have hj0K' : j0 = K := by omega
    subst hj0K'
    funext x y
    unfold indRowState
    by_cases hsq : x < n ∧ y < n
    · rw [if_pos hsq, if_pos hsq]
      have hstep : (j0 + 1) * b = j0 * b + b := Nat.succ_mul j0 b
      have hcond : ((j0 * b ≤ x ∧ x < j0 * b + b) ∨ (j0 * b ≤ y ∧ y < j0 * b + b) ∨
          (∃ i' ∈ s, i' ≠ j0 ∧ i' * b ≤ x ∧ x < i' * b + b) ∨
          (i * b ≤ x ∧ x < i * b + b ∧ y < j0 * b))
          ↔ ((j0 * b ≤ x ∧ x < j0 * b + b) ∨ (j0 * b ≤ y ∧ y < j0 * b + b) ∨
          (∃ i' ∈ s, i' ≠ j0 ∧ i' * b ≤ x ∧ x < i' * b + b) ∨
          (i * b ≤ x ∧ x < i * b + b ∧ y < (j0 + 1) * b)) := by
        constructor
        · rintro (h | h | h | ⟨h1, h2, h3⟩)
          · exact Or.inl h
          · exact Or.inr (Or.inl h)
          · exact Or.inr (Or.inr (Or.inl h))
          · exact Or.inr (Or.inr (Or.inr ⟨h1, h2, by omega⟩))
        · rintro (h | h | h | ⟨h1, h2, h3⟩)
          · exact Or.inl h
          · exact Or.inr (Or.inl h)
          · exact Or.inr (Or.inr (Or.inl h))
          · rcases Nat.lt_or_ge y (j0 * b) with h' | h'
            · exact Or.inr (Or.inr (Or.inr ⟨h1, h2, h'⟩))
            · exact Or.inr (Or.inl ⟨h', by omega⟩)
      rw [if_congr hcond rfl rfl]
    · rw [if_neg hsq, if_neg hsq]

theorem indPhaseState_congr (W : Mat) (n b K : Nat) (s s' : List Nat)
    (h : ∀ x, x ∈ s ↔ x ∈ s') : indPhaseState W n b K s = indPhaseState W n b K s' := by
  funext x y
  unfold indPhaseState
  by_cases hsq : x < n ∧ y < n
  · rw [if_pos hsq, if_pos hsq]
    have hcond : ((K * b ≤ x ∧ x < K * b + b) ∨ (K * b ≤ y ∧ y < K * b + b) ∨
        (∃ i ∈ s, i ≠ K ∧ i * b ≤ x ∧ x < i * b + b))
        ↔ ((K * b ≤ x ∧ x < K * b + b) ∨ (K * b ≤ y ∧ y < K * b + b) ∨
        (∃ i ∈ s', i ≠ K ∧ i * b ≤ x ∧ x < i * b + b)) := by
      constructor
      · rintro (h1 | h1 | ⟨i, hm, hp⟩)
        · exact Or.inl h1
        · exact Or.inr (Or.inl h1)
        · exact Or.inr (Or.inr ⟨i, (h i).mp hm, hp⟩)
      · rintro (h1 | h1 | ⟨i, hm, hp⟩)
        · exact Or.inl h1
        · exact Or.inr (Or.inl h1)
        · exact Or.inr (Or.inr ⟨i, (h i).mpr hm, hp⟩)
    rw [if_congr hcond rfl rfl]
  · rw [if_neg hsq, if_neg hsq]

/-- One independent-phase task relaxes one whole block row. -/
theorem indepTask_eval {W : Mat} {n b B K : Nat} (hW : Bnd W n)
    (hn : n = B * b) (hK : K < B) (s : List Nat) {i : Nat} (hi : i < B) (his : i ∉ s) :
    indepTask b B K (indPhaseState W n b K s) i = indPhaseState W n b K (i :: s) := by
  unfold indepTask
  by_cases hiK : i ≠ K
  · rw [if_pos hiK]
    have h0 : indRowState W n b K s i 0 = indPhaseState W n b K s := by
      funext x y
      unfold indRowState indPhaseState
      by_cases hsq : x < n ∧ y < n
      · rw [if_pos hsq, if_pos hsq]
        have hcond : ((K * b ≤ x ∧ x < K * b + b) ∨ (K * b ≤ y ∧ y < K * b + b) ∨
            (∃ i' ∈ s, i' ≠ K ∧ i' * b ≤ x ∧ x < i' * b + b) ∨
            (i * b ≤ x ∧ x < i * b + b ∧ y < 0 * b))
            ↔ ((K * b ≤ x ∧ x < K * b + b) ∨ (K * b ≤ y ∧ y < K * b + b) ∨
            (∃ i' ∈ s, i' ≠ K ∧ i' * b ≤ x ∧ x < i' * b + b)) := by
          constructor
          · rintro (h1 | h1 | h1 | ⟨-, -, h1⟩)
            · exact Or.inl h1
            · exact Or.inr (Or.inl h1)
            · exact Or.inr (Or.inr h1)
            · omega
          · rintro (h1 | h1 | h1)
            · exact Or.inl h1
            · exact Or.inr (Or.inl h1)
            · exact Or.inr (Or.inr (Or.inl h1))
        rw [if_congr hcond rfl rfl]
      · rw [if_neg hsq, if_neg hsq]
    have hinv := loopUp_inv2
      (fun j W' => if j ≠ K then
        writeBlock W' i j b (floyd (readBlock W' i j b) (readBlock W' i K b)
          (readBlock W' K j b) b) else W')
      (indRowState W n b K s i) B (indPhaseState W n b K s) h0
      (fun j0 hj0 => indInner_step hW hn hK s hi hiK his hj0)
    rw [hinv]
    funext x y
    unfold indRowState indPhaseState
    by_cases hsq : x < n ∧ y < n
    · rw [if_pos hsq, if_pos hsq]
      have hcond : ((K * b ≤ x ∧ x < K * b + b) ∨ (K * b ≤ y ∧ y < K * b + b) ∨
          (∃ i' ∈ s, i' ≠ K ∧ i' * b ≤ x ∧ x < i' * b + b) ∨
          (i * b ≤ x ∧ x < i * b + b ∧ y < B * b))
          ↔ ((K * b ≤ x ∧ x < K * b + b) ∨ (K * b ≤ y ∧ y < K * b + b) ∨
          (∃ i' ∈ i :: s, i' ≠ K ∧ i' * b ≤ x ∧ x < i' * b + b)) := by
        constructor
        · rintro (h1 | h1 | ⟨i', hm, hp⟩ | ⟨h1, h2, -⟩)
          · exact Or.inl h1
          · exact Or.inr (Or.inl h1)
          · exact Or.inr (Or.inr ⟨i', List.mem_cons_of_mem i hm, hp⟩)
          · exact Or.inr (Or.inr ⟨i, List.mem_cons_self i s, hiK, h1, h2⟩)
        · rintro (h1 | h1 | ⟨i', hm, hp⟩)
          · exact Or.inl h1
          · exact Or.inr (Or.inl h1)
          · rcases List.mem_cons.mp hm with rfl | hm'
            · exact Or.inr (Or.inr (Or.inr ⟨hp.2.1, hp.2.2, by omega⟩))
            · exact Or.inr (Or.inr (Or.inl ⟨i', hm', hp⟩))
      rw [if_congr hcond rfl rfl]
    · rw [if_neg hsq, if_neg hsq]
  · rw [if_neg hiK]
    have hiK' : i = K := by omega
    subst hiK'
    funext x y
    unfold indPhaseState
    by_cases hsq : x < n ∧ y < n
    · rw [if_pos hsq, if_pos hsq]
      have hcond : ((i * b ≤ x ∧ x < i * b + b) ∨ (i * b ≤ y ∧ y < i * b + b) ∨
          (∃ i' ∈ s, i' ≠ i ∧ i' * b ≤ x ∧ x < i' * b + b))
          ↔ ((i * b ≤ x ∧ x < i * b + b) ∨ (i * b ≤ y ∧ y < i * b + b) ∨
          (∃ i' ∈ i :: s, i' ≠ i ∧ i' * b ≤ x ∧ x < i' * b + b)) := by
        constructor
        · rintro (h1 | h1 | ⟨i', hm, hp⟩)
          · exact Or.inl h1
          · exact Or.inr (Or.inl h1)
          · exact Or.inr (Or.inr ⟨i', List.mem_cons_of_mem i hm, hp⟩)
        · rintro (h1 | h1 | ⟨i', hm, hp⟩)
          · exact Or.inl h1
          · exact Or.inr (Or.inl h1)
          · rcases List.mem_cons.mp hm with rfl | hm'
            · exact absurd rfl hp.1
            · exact Or.inr (Or.inr ⟨i', hm', hp⟩)
      rw [if_congr hcond rfl rfl]
    · rw [if_neg hsq, if_neg hsq]

theorem indPhase_fold {W : Mat} {n b B K : Nat} (hW : Bnd W n)
    (hn : n = B * b) (hK : K < B) :
    ∀ (l s : List Nat), l.Nodup → (∀ x ∈ l, x < B) → (∀ x ∈ l, x ∉ s) →
    l.foldl (indepTask b B K) (indPhaseState W n b K s)
      = indPhaseState W n b K (l.reverse ++ s) := by
  intro l
  induction l with
  | nil => intro s _ _ _; simp
  | cons a t ih =>
    intro s hnd hlt hout
    have hnd' := List.nodup_cons.mp hnd
    rw [List.foldl_cons,
      indepTask_eval hW hn hK s (hlt a (List.mem_cons_self a t))
        (hout a (List.mem_cons_self a t)),
      ih (a :: s) hnd'.2 (fun x hx => hlt x (List.mem_cons_of_mem a hx))
        (fun x hx => by
          intro hmem
          rcases List.mem_cons.mp hmem with rfl | hmem'
          · exact hnd'.1 hx
          · exact hout x (List.mem_cons_of_mem a hx) hmem')]
    apply indPhaseState_congr
    intro x
    simp only [List.mem_reverse, List.mem_cons, List.mem_append]
    tauto

/-- After the independent phase the whole square holds the new values. -/
theorem indPhase_done {W : Mat} {n b B K : Nat} (hb : 0 < b) (hn : n = B * b)
    (hK : K < B) {s : List Nat} (hs : ∀ i', i' < B → i' ∈ s) :
    indPhaseState W n b K s = deltaState W n (K * b + b) := by
  funext x y
  unfold indPhaseState deltaState
  by_cases hsq : x < n ∧ y < n
  · rw [if_pos hsq, if_pos hsq]
    have hcond : (K * b ≤ x ∧ x < K * b + b) ∨ (K * b ≤ y ∧ y < K * b + b) ∨
        (∃ i ∈ s, i ≠ K ∧ i * b ≤ x ∧ x < i * b + b) := by
      obtain ⟨i0, hi0B, hi01, hi02⟩ := block_cover hb hn hsq.1
      by_cases hi0K : i0 = K
      · subst hi0K; exact Or.inl ⟨hi01, hi02⟩
      · exact Or.inr (Or.inr ⟨i0, hs i0 hi0B, hi0K, hi01, hi02⟩)
    rw [if_pos hcond]
  · rw [if_neg hsq, if_neg hsq]

/-- One full outer iteration of the blocked engine advances the recurrence
state by `b` intermediate vertices, for every commit order of its three
parallel loops. -/
theorem blockedStep_eval {W : Mat} {n b B K : Nat} (hW : Bnd W n) (hb : 0 < b)
    (hn : n = B * b) (hK : K < B) (ord : List Nat × List Nat × List Nat)
    (h1 : ord.1.Perm (List.range B)) (h2 : ord.2.1.Perm (List.range B))
    (h3 : ord.2.2.Perm (List.range B)) :
    blockedStep b B ord K (deltaState W n (K * b)) = deltaState W n (K * b + b) := by
  have hWkk := Wkk_eval (B := B) hW hn hK
  have hmem1 : ∀ x ∈ ord.1, x < B := fun x hx => List.mem_range.mp (h1.mem_iff.mp hx)
  have hmem2 : ∀ x ∈ ord.2.1, x < B := fun x hx => List.mem_range.mp (h2.mem_iff.mp hx)
  have hmem3 : ∀ x ∈ ord.2.2, x < B := fun x hx => List.mem_range.mp (h3.mem_iff.mp hx)
  have hnd1 : ord.1.Nodup := h1.nodup_iff.mpr (List.nodup_range B)
  have hnd2 : ord.2.1.Nodup := h2.nodup_iff.mpr (List.nodup_range B)
  have hnd3 : ord.2.2.Nodup := h3.nodup_iff.mpr (List.nodup_range B)
  have hcov1 : ∀ j', j' < B → j' ∈ ord.1.reverse ++ ([] : List Nat) := fun j' hj' => by
    rw [List.mem_append, List.mem_reverse]
    exact Or.inl (h1.mem_iff.mpr (List.mem_range.mpr hj'))
  have hcov2 : ∀ i', i' < B → i' ∈ ord.2.1.reverse ++ ([] : List Nat) := fun i' hi' => by
    rw [List.mem_append, List.mem_reverse]
    exact Or.inl (h2.mem_iff.mpr (List.mem_range.mpr hi'))
  have hcov3 : ∀ i', i' < B → i' ∈ ord.2.2.reverse ++ ([] : List Nat) := fun i' hi' => by
    rw [List.mem_append, List.mem_reverse]
    exact Or.inl (h3.mem_iff.mpr (List.mem_range.mpr hi'))
  unfold blockedStep
  show ord.2.2.foldl (indepTask b B K)
    (ord.2.1.foldl (crossColTask b K (floydSelf (readBlock (deltaState W n (K * b)) K K b) b))
      (ord.1.foldl (crossRowTask b K (floydSelf (readBlock (deltaState W n (K * b)) K K b) b))
        (writeBlock (deltaState W n (K * b)) K K b
          (floydSelf (readBlock (deltaState W n (K * b)) K K b) b)))) = _
  rw [diag_write hW hn hK,
    rowPhase_fold hW hn hK hWkk ord.1 [] hnd1 hmem1 (fun x _ => List.not_mem_nil x),
    rowPhase_to_col hb hn hcov1,
    colPhase_fold hW hn hK hWkk ord.2.1 [] hnd2 hmem2 (fun x _ => List.not_mem_nil x),
    colPhase_to_ind hb hn hcov2,
    indPhase_fold hW hn hK ord.2.2 [] hnd3 hmem3 (fun x _ => List.not_mem_nil x),
    indPhase_done hb hn hK hcov3]

/-- The blocked engine computes the Floyd-Warshall recurrence on the square,
for every block size dividing `n` and every scheduling of its parallel
loops. -/
theorem blocked_eq_delta {W : Mat} {n b : Nat}
    {sched : Nat → List Nat × List Nat × List Nat} (hW : Bnd W n) (hb : 0 < b)
    (hdvd : b ∣ n)
    (hs : ∀ k, ((sched k).1.Perm (List.range (n / b)) ∧
      (sched k).2.1.Perm (List.range (n / b)) ∧ (sched k).2.2.Perm (List.range (n / b)))) :
    blocked_floyd_warshall W n b sched = deltaState W n n := by
  have hn : n = (n / b) * b := (Nat.div_mul_cancel hdvd).symm
  unfold blocked_floyd_warshall
  have hfin : deltaState W n ((n / b) * b) = deltaState W n n := by rw [← hn]
  rw [← hfin]
  apply loopUp_inv2 _ (fun K => deltaState W n (K * b)) (n / b) W
  · funext x y
    unfold deltaState
    by_cases hsq : x < n ∧ y < n
    · rw [if_pos hsq]
      show delta W (0 * b) x y = W x y
      rw [Nat.zero_mul]
      rfl
    · rw [if_neg hsq]
  · intro K hK
    show blockedStep b (n / b) (sched K) K (deltaState W n (K * b)) = _
    rw [blockedStep_eval hW hb hn hK (sched K) (hs K).1 (hs K).2.1 (hs K).2.2]
    have : K * b + b = (K + 1) * b := (Nat.succ_mul K b).symm
    rw [this]

/-- With a zero diagonal and non-negative weights, the recurrence keeps the
diagonal at zero. -/
theorem delta_diag_zero {W : Mat} {n : Nat} (hval : ValidGraph W n) :
    ∀ m, m ≤ n → ∀ i, i < n → delta W m i i = 0 := by
  intro m
  induction m with
  | zero => intro _ i hi; exact hval.1 i hi
  | succ m ih =>
    intro hm i hi
    have hmn : m < n := by omega
    have h0 := ih (by omega) i hi
    rw [delta_succ, h0]
    have h1 : 0 ≤ delta W m i m :=
      delta_nonneg (Bnd.nonneg hval.bnd) (by omega) i m hi hmn
    have h2 : 0 ≤ delta W m m i :=
      delta_nonneg (Bnd.nonneg hval.bnd) (by omega) m i hmn hi
    omega

/-- The engine output is a fixed point of the recurrence, so re-running any
engine is a no-op. -/
theorem deltaState_idem {W : Mat} {n : Nat} (hB : Bnd W n) :
    deltaState (deltaState W n n) n n = deltaState W n n := by
  have htri : ∀ k, k < n → ∀ i j, i < n → j < n →
      deltaState W n n i j ≤ deltaState W n n i k + deltaState W n n k j := by
    intro k hk i j hi hj
    unfold deltaState
    rw [if_pos ⟨hi, hj⟩, if_pos ⟨hi, hk⟩, if_pos ⟨hk, hj⟩]
    exact delta_triangle (Bnd.nonneg hB) n (le_refl n) k hk i j hi hj
  funext x y
  by_cases hsq : x < n ∧ y < n
  · show (if x < n ∧ y < n then delta (deltaState W n n) n x y else deltaState W n n x y)
      = deltaState W n n x y
    rw [if_pos hsq]
    exact delta_fixed htri n (le_refl n) x y hsq.1 hsq.2
  · show (if x < n ∧ y < n then delta (deltaState W n n) n x y else deltaState W n n x y)
      = deltaState W n n x y
    rw [if_neg hsq]

theorem fwBody_eq_specBody (k : Nat) (g : Mat) (i j : Nat) :
    fwBody k g i j = specBody k g i j := by
  unfold fwBody specBody
  by_cases hA : g i k ≠ INF
  · by_cases hB : g k j ≠ INF
    · by_cases hlt : g i j > g i k + g k j
      · rw [if_pos ⟨hlt, hB, hA⟩, if_pos ⟨hA, hB⟩, min_eq_right (le_of_lt hlt)]
      · rw [if_neg (fun h => hlt h.1), if_pos ⟨hA, hB⟩, min_eq_left (not_lt.mp hlt)]
        funext x y
        by_cases hxy : x = i ∧ y = j
        · obtain ⟨rfl, rfl⟩ := hxy; rw [upd_hit]
        · rw [upd_miss _ _ _ _ hxy]
    · rw [if_neg (fun h => hB h.2.1), if_neg (fun h => hB h.2)]
  · rw [if_neg (fun h => hA h.2.2), if_neg (fun h => hA h.1)]

theorem setDiag_eval (g : Mat) (V : Nat) :
    setDiag g V = fun x y => if x = y ∧ x < V then 0 else g x y := by
  unfold setDiag
  apply loopUp_inv2 _ (fun i0 => fun x y => if x = y ∧ x < i0 then 0 else g x y) V g
  · funext x y
    rw [if_neg (by rintro ⟨_, h⟩; omega)]
  · intro t ht
    have hrow : ∀ M : Mat, loopUp (fun j g => if t * V + j = t * V + t then upd g t j 0 else g) V M
        = fun x y => if x = t ∧ y = t ∧ t < V then 0 else M x y := by
      intro M
      apply loopUp_inv2 _ (fun j0 => fun x y => if x = t ∧ y = t ∧ t < j0 then 0 else M x y) V M
      · funext x y
        rw [if_neg (by rintro ⟨_, _, h⟩; omega)]
      · intro u hu
        by_cases hut : u = t
        · subst hut
          rw [if_pos rfl]
          funext x y
          by_cases hxy : x = u ∧ y = u
          · obtain ⟨rfl, rfl⟩ := hxy
            rw [upd_hit, if_pos ⟨rfl, rfl, by omega⟩]
          · rw [upd_miss _ _ _ _ hxy]
            have hiff : (x = u ∧ y = u ∧ u < u) ↔ (x = u ∧ y = u ∧ u < u + 1) := by
              constructor
              · rintro ⟨_, _, h⟩; omega
              · rintro ⟨rfl, rfl, _⟩; exact absurd ⟨rfl, rfl⟩ hxy
            rw [if_congr hiff rfl rfl]
        · rw [if_neg (by omega)]
          funext x y
          have hiff : (x = t ∧ y = t ∧ t < u) ↔ (x = t ∧ y = t ∧ t < u + 1) := by
            constructor
            · rintro ⟨rfl, rfl, h⟩; exact ⟨rfl, rfl, by omega⟩
            · rintro ⟨rfl, rfl, h⟩
              exact ⟨rfl, rfl, by omega⟩
          rw [if_congr hiff rfl rfl]
    rw [hrow]
    funext p q
    split_ifs <;> first | rfl | omega

theorem markEdges_eval : ∀ (es : List (Nat × Nat)) (g : Mat) (x y : Nat),
    markEdges g es x y = if (x, y) ∈ es then 1 else g x y := by
  intro es
  induction es with
  | nil => intro g x y; simp [markEdges]
  | cons e t ih =>
    intro g x y
    unfold markEdges at ih ⊢
    rw [List.foldl_cons, ih]
    by_cases hmem : (x, y) ∈ t
    · rw [if_pos hmem, if_pos (List.mem_cons_of_mem e hmem)]
    · rw [if_neg hmem]
      by_cases hxy : (x, y) = e
      · have hx : x = e.1 ∧ y = e.2 := by
          constructor <;> rw [← hxy]
        rw [if_pos (List.mem_cons.mpr (Or.inl hxy))]
        obtain ⟨rfl, rfl⟩ := hx
        rw [upd_hit]
      · have hne : ¬(x = e.1 ∧ y = e.2) := by
          rintro ⟨h1, h2⟩
          exact hxy (Prod.ext h1 h2)
        rw [upd_miss _ _ _ _ hne,
          if_neg (fun h => by
            rcases List.mem_cons.mp h with h' | h'
            · exact hxy h'
            · exact hmem h')]

/-- Accepted samples are never self-loops. -/
theorem sampleLoop_ne (V E : Nat) (stream : Nat → Nat) :
    ∀ fuel c acc es, sampleLoop V E stream fuel c acc = some es →
    ∀ e ∈ es, e ∈ acc ∨ e.1 ≠ e.2 := by
  intro fuel
  induction fuel with
  | zero =>
    intro c acc es h e he
    unfold sampleLoop at h
    split at h
    · cases h; exact Or.inl he
    · cases h
  | succ fuel ih =>
    intro c acc es h e he
    unfold sampleLoop at h
    split at h
    · cases h; exact Or.inl he
    · rename_i hfull
      split at h
      · exact ih _ _ _ h e he
      · split at h
        · exact ih _ _ _ h e he
        · rename_i huv hdup
          rcases ih _ _ _ h e he with hacc | hne
          · rcases List.mem_append.mp hacc with h' | h'
            · exact Or.inl h'
            · rcases List.mem_singleton.mp h' with rfl
              exact Or.inr huv
          · exact Or.inr hne

/-- C1: for every valid input DenseGraph (`n ≥ 1`, zero diagonal, every entry
a finite non-negative weight or the sentinel), every worker-thread count ≥ 1
(represented by the commit orders `schedN` / `schedB` of the parallel loops),
and every block size `b` with `1 ≤ b ≤ n` and `b ∣ n`, the serial, naive and
blocked engines produce entrywise-identical result matrices. -/
theorem C1_cross_engine_equivalence {W : Mat} {n b : Nat}
    {schedN : Nat → List Nat} {schedB : Nat → List Nat × List Nat × List Nat}
    (hval : ValidGraph W n) (hn : 1 ≤ n) (hb1 : 1 ≤ b) (hbn : b ≤ n) (hdvd : b ∣ n)
    (hsN : ∀ k, (schedN k).Perm (List.range n))
    (hsB : ∀ k, (schedB k).1.Perm (List.range (n / b)) ∧
      (schedB k).2.1.Perm (List.range (n / b)) ∧ (schedB k).2.2.Perm (List.range (n / b))) :
    ∀ i j, i < n → j < n →
      serial_floyd_warshall W n i j = naive_floyd_warshall W n schedN i j ∧
      serial_floyd_warshall W n i j = blocked_floyd_warshall W n b schedB i j := by
  have hB := hval.bnd
  intro i j hi hj
  rw [serial_eq_delta hB, naive_eq_delta hB hsN,
    blocked_eq_delta hB (by omega) hdvd hsB]
  exact ⟨rfl, rfl⟩

theorem C1_witness :
    serial_floyd_warshall Wex 2 0 1 = naive_floyd_warshall Wex 2 (fun _ => List.range 2) 0 1 ∧
    serial_floyd_warshall Wex 2 0 1
      = blocked_floyd_warshall Wex 2 1 (fun _ => (List.range 2, List.range 2, List.range 2)) 0 1 :=
  @C1_cross_engine_equivalence Wex 2 1 (fun _ => List.range 2)
    (fun _ => (List.range 2, List.range 2, List.range 2))
    (by decide) (by decide) (by decide) (by decide) ⟨2, rfl⟩
    (fun _ => List.Perm.refl _)
    (fun _ => ⟨List.Perm.refl _, List.Perm.refl _, List.Perm.refl _⟩)
    0 1 (by decide) (by decide)

/-- C2: the serial engine performs, in place, for outer `k = 0..n-1` in
strictly increasing order and every `(i, j)`, the update
`dist[i][j] = min(dist[i][j], dist[i][k] + dist[k][j])` exactly when neither
`dist[i][k]` nor `dist[k][j]` equals the sentinel, skipping the cell
otherwise: the code's kernel coincides with the spec's algorithm
(`serialSpecAlgorithm`) on every input matrix. -/
theorem C2_serial_matches_spec (W : Mat) (n : Nat) :
    serial_floyd_warshall W n = serialSpecAlgorithm W n := by
  unfold serial_floyd_warshall serialSpecAlgorithm
  apply loopUp_congr
  intro k g
  apply loopUp_congr
  intro i g'
  apply loopUp_congr
  intro j g''
  exact fwBody_eq_specBody k g'' i j

/-- C3: after any of the three engines completes on a valid DenseGraph, the
result satisfies the triangle closure: whenever `dist[i][k]` and `dist[k][j]`
are finite, `dist[i][j] ≤ dist[i][k] + dist[k][j]`. -/
theorem C3_triangle_closure {W : Mat} {n b : Nat}
    {schedN : Nat → List Nat} {schedB : Nat → List Nat × List Nat × List Nat}
    (hval : ValidGraph W n) (hn : 1 ≤ n) (hb1 : 1 ≤ b) (hbn : b ≤ n) (hdvd : b ∣ n)
    (hsN : ∀ k, (schedN k).Perm (List.range n))
    (hsB : ∀ k, (schedB k).1.Perm (List.range (n / b)) ∧
      (schedB k).2.1.Perm (List.range (n / b)) ∧ (schedB k).2.2.Perm (List.range (n / b))) :
    ∀ i j k, i < n → j < n → k < n →
      (serial_floyd_warshall W n i k ≠ INF → serial_floyd_warshall W n k j ≠ INF →
        serial_floyd_warshall W n i j
          ≤ serial_floyd_warshall W n i k + serial_floyd_warshall W n k j) ∧
      (naive_floyd_warshall W n schedN i k ≠ INF →
        naive_floyd_warshall W n schedN k j ≠ INF →
        naive_floyd_warshall W n schedN i j
          ≤ naive_floyd_warshall W n schedN i k + naive_floyd_warshall W n schedN k j) ∧
      (blocked_floyd_warshall W n b schedB i k ≠ INF →
        blocked_floyd_warshall W n b schedB k j ≠ INF →
        blocked_floyd_warshall W n b schedB i j
          ≤ blocked_floyd_warshall W n b schedB i k + blocked_floyd_warshall W n b schedB k j) := by
  have hB := hval.bnd
  intro i j k hi hj hk
  rw [serial_eq_delta hB, naive_eq_delta hB hsN, blocked_eq_delta hB (by omega) hdvd hsB]
  have htri : delta W n i j ≤ delta W n i k + delta W n k j :=
    delta_triangle (Bnd.nonneg hB) n (le_refl n) k hk i j hi hj
  unfold deltaState
  rw [if_pos ⟨hi, hk⟩, if_pos ⟨hk, hj⟩, if_pos ⟨hi, hj⟩]
  exact ⟨fun _ _ => htri, fun _ _ => htri, fun _ _ => htri⟩

theorem C3_witness :
    serial_floyd_warshall Wex 2 0 1
      ≤ serial_floyd_warshall Wex 2 0 0 + serial_floyd_warshall Wex 2 0 1 ∧
    blocked_floyd_warshall Wex 2 1 (fun _ => (List.range 2, List.range 2, List.range 2)) 0 1
      ≤ blocked_floyd_warshall Wex 2 1 (fun _ => (List.range 2, List.range 2, List.range 2)) 0 0
        + blocked_floyd_warshall Wex 2 1 (fun _ => (List.range 2, List.range 2, List.range 2)) 0 1 :=
  ⟨(@C3_triangle_closure Wex 2 1 (fun _ => List.range 2)
      (fun _ => (List.range 2, List.range 2, List.range 2))
      (by decide) (by decide) (by decide) (by decide) ⟨2, rfl⟩
      (fun _ => List.Perm.refl _)
      (fun _ => ⟨List.Perm.refl _, List.Perm.refl _, List.Perm.refl _⟩)
      0 1 0 (by decide) (by decide) (by decide)).1 (by decide) (by decide),
   (@C3_triangle_closure Wex 2 1 (fun _ => List.range 2)
      (fun _ => (List.range 2, List.range 2, List.range 2))
      (by decide) (by decide) (by decide) (by decide) ⟨2, rfl⟩
      (fun _ => List.Perm.refl _)
      (fun _ => ⟨List.Perm.refl _, List.Perm.refl _, List.Perm.refl _⟩)
      0 1 0 (by decide) (by decide) (by decide)).2.2 (by decide) (by decide)⟩

/-- C4: for every `V ≥ 1` and requested edge count `E`, the generator signals
failure (returns `-1`) if and only if `E > V * (V - 1)`, regardless of the
random stream and of how long the sampling loop runs. -/
theorem C4_generate_failure_iff (V E : Nat) (stream : Nat → Nat) (fuel : Nat) (g : Mat)
    (hV : 1 ≤ V) :
    (generate_linear_graph g V E stream fuel).1 = some (-1) ↔ E > V * (V - 1) := by
  constructor
  · intro h
    by_cases hfe : E > V * (V - 1)
    · exact hfe
    · exfalso
      simp only [generate_linear_graph, if_neg hfe] at h
      rcases hs : sampleLoop V E stream fuel 0 [] with _ | es <;> rw [hs] at h
      · exact Option.noConfusion h
      · exact absurd (Option.some.inj h) (by decide)
  · intro h
    simp only [generate_linear_graph, if_pos h]

theorem C4_witness :
    (generate_linear_graph (fun _ _ => 0) 2 3 (fun c => c) 0).1 = some (-1) ∧
    ¬(generate_linear_graph (fun _ _ => 0) 2 2 (fun c => c) 2).1 = some (-1) :=
  ⟨(C4_generate_failure_iff 2 3 (fun c => c) 0 (fun _ _ => 0) (by decide)).mpr (by decide),
   fun h => absurd ((C4_generate_failure_iff 2 2 (fun c => c) 2 (fun _ _ => 0)
     (by decide)).mp h) (by decide)⟩

/-- C5: the claim states that on success every off-diagonal non-edge entry
equals the sentinel.  The code never writes the sentinel (it only zeroes the
diagonal and writes `1` on sampled edges), so with `main.cpp`'s
zero-initialized buffer the claim fails: here generation succeeds
(`V = 2`, `E = 1`, the stream yields the single edge `(0, 1)`), yet the
non-edge entry `(1, 0)` is `0`, not `INF`. -/
theorem C5_zero_buffer_not_sentinel :
    (generate_linear_graph (fun _ _ => 0) 2 1 (fun c => c) 1).1 = some 1 ∧
    (generate_linear_graph (fun _ _ => 0) 2 1 (fun c => c) 1).2 1 0 = 0 ∧
    (generate_linear_graph (fun _ _ => 0) 2 1 (fun c => c) 1).2 1 0 ≠ INF := by
  refine ⟨?_, ?_, ?_⟩ <;> decide

/-- C6: the claim states that invalid configurations (including infeasible
`E > V*(V-1)`, block size not dividing or exceeding the vertex count, and
several selected engines) are detected before any engine runs and make the
process exit with status 1.  The code does not do this:
* `E = 3 > 2 = V*(V-1)`: `generate_linear_graph` returns `-1`, but
  `if (!generate_linear_graph(...))` treats `-1` as success, so the engine
  runs and the process exits 0;
* `tile_length = 2` with `V = 3` (neither dividing nor within bounds is
  enforced; the `tile_length > vertices` check only logs): the blocked engine
  runs and the process exits 0;
* both `-s` and `-n` selected: the sequential engine silently runs, exit 0. -/
theorem C6_invalid_configs_not_rejected :
    (mainRun true false false 2 3 1 (fun c => c) 0).map (fun r => (r.1, r.2.1))
        = some (0, true) ∧
    (mainRun false false true 3 2 2 (fun c => c) 2).map (fun r => (r.1, r.2.1))
        = some (0, true) ∧
    (mainRun true true false 2 1 1 (fun c => c) 1).map (fun r => (r.1, r.2.1))
        = some (0, true) := by
  refine ⟨?_, ?_, ?_⟩ <;> decide

/-- C7: on a valid DenseGraph every diagonal entry is `0` before the run and
after each of the three engines; no engine moves a diagonal entry away
from `0`. -/
theorem C7_diagonal_preserved {W : Mat} {n b : Nat}
    {schedN : Nat → List Nat} {schedB : Nat → List Nat × List Nat × List Nat}
    (hval : ValidGraph W n) (hn : 1 ≤ n) (hb1 : 1 ≤ b) (hbn : b ≤ n) (hdvd : b ∣ n)
    (hsN : ∀ k, (schedN k).Perm (List.range n))
    (hsB : ∀ k, (schedB k).1.Perm (List.range (n / b)) ∧
      (schedB k).2.1.Perm (List.range (n / b)) ∧ (schedB k).2.2.Perm (List.range (n / b))) :
    ∀ i, i < n →
      W i i = 0 ∧
      serial_floyd_warshall W n i i = 0 ∧
      naive_floyd_warshall W n schedN i i = 0 ∧
      blocked_floyd_warshall W n b schedB i i = 0 := by
  have hB := hval.bnd
  intro i hi
  rw [serial_eq_delta hB, naive_eq_delta hB hsN, blocked_eq_delta hB (by omega) hdvd hsB]
  unfold deltaState
  rw [if_pos ⟨hi, hi⟩]
  have h0 := delta_diag_zero hval n (le_refl n) i hi
  exact ⟨hval.1 i hi, h0, h0, h0⟩

theorem C7_witness :
    Wex 0 0 = 0 ∧
    serial_floyd_warshall Wex 2 0 0 = 0 ∧
    naive_floyd_warshall Wex 2 (fun _ => List.range 2) 0 0 = 0 ∧
    blocked_floyd_warshall Wex 2 1 (fun _ => (List.range 2, List.range 2, List.range 2)) 0 0 = 0 :=
  @C7_diagonal_preserved Wex 2 1 (fun _ => List.range 2)
    (fun _ => (List.range 2, List.range 2, List.range 2))
    (by decide) (by decide) (by decide) (by decide) ⟨2, rfl⟩
    (fun _ => List.Perm.refl _)
    (fun _ => ⟨List.Perm.refl _, List.Perm.refl _, List.Perm.refl _⟩)
    0 (by decide)

/-- C8: each engine is idempotent on valid DenseGraphs: applying the same
engine to its own output (under any scheduling of the second run) leaves
every entry unchanged. -/
theorem C8_engines_idempotent {W : Mat} {n b : Nat}
    {s1 s2 : Nat → List Nat} {t1 t2 : Nat → List Nat × List Nat × List Nat}
    (hval : ValidGraph W n) (hn : 1 ≤ n) (hb1 : 1 ≤ b) (hbn : b ≤ n) (hdvd : b ∣ n)
    (hs1 : ∀ k, (s1 k).Perm (List.range n)) (hs2 : ∀ k, (s2 k).Perm (List.range n))
    (ht1 : ∀ k, (t1 k).1.Perm (List.range (n / b)) ∧
      (t1 k).2.1.Perm (List.range (n / b)) ∧ (t1 k).2.2.Perm (List.range (n / b)))
    (ht2 : ∀ k, (t2 k).1.Perm (List.range (n / b)) ∧
      (t2 k).2.1.Perm (List.range (n / b)) ∧ (t2 k).2.2.Perm (List.range (n / b))) :
    ∀ i j, i < n → j < n →
      serial_floyd_warshall (serial_floyd_warshall W n) n i j
        = serial_floyd_warshall W n i j ∧
      naive_floyd_warshall (naive_floyd_warshall W n s1) n s2 i j
        = naive_floyd_warshall W n s1 i j ∧
      blocked_floyd_warshall (blocked_floyd_warshall W n b t1) n b t2 i j
        = blocked_floyd_warshall W n b t1 i j := by
  have hB := hval.bnd
  have hT : Bnd (deltaState W n n) n := deltaState_bnd hB (le_refl n)
  intro i j hi hj
  refine ⟨?_, ?_, ?_⟩
  · rw [serial_eq_delta hB, serial_eq_delta hT, deltaState_idem hB]
  · rw [naive_eq_delta hB hs1, naive_eq_delta hT hs2, deltaState_idem hB]
  · rw [blocked_eq_delta hB (by omega) hdvd ht1, blocked_eq_delta hT (by omega) hdvd ht2,
      deltaState_idem hB]

theorem C8_witness :
    serial_floyd_warshall (serial_floyd_warshall Wex 2) 2 0 1
      = serial_floyd_warshall Wex 2 0 1 ∧
    naive_floyd_warshall (naive_floyd_warshall Wex 2 (fun _ => List.range 2)) 2
        (fun _ => List.range 2) 0 1
      = naive_floyd_warshall Wex 2 (fun _ => List.range 2) 0 1 ∧
    blocked_floyd_warshall
        (blocked_floyd_warshall Wex 2 1 (fun _ => (List.range 2, List.range 2, List.range 2)))
        2 1 (fun _ => (List.range 2, List.range 2, List.range 2)) 0 1
      = blocked_floyd_warshall Wex 2 1 (fun _ => (List.range 2, List.range 2, List.range 2)) 0 1 :=
  @C8_engines_idempotent Wex 2 1 (fun _ => List.range 2) (fun _ => List.range 2)
    (fun _ => (List.range 2, List.range 2, List.range 2))
    (fun _ => (List.range 2, List.range 2, List.range 2))
    (by decide) (by decide) (by decide) (by decide) ⟨2, rfl⟩
    (fun _ => List.Perm.refl _) (fun _ => List.Perm.refl _)
    (fun _ => ⟨List.Perm.refl _, List.Perm.refl _, List.Perm.refl _⟩)
    (fun _ => ⟨List.Perm.refl _, List.Perm.refl _, List.Perm.refl _⟩)
    0 1 (by decide) (by decide)

/-- C9: the final matrix of the naive-parallel engine is a deterministic
function of the input alone, and that of the blocked engine of the input and
block size alone: any two commit orders of the parallel loop iterations
(hence any two thread counts and schedules) produce identical entries. -/
theorem C9_scheduling_determinism {W : Mat} {n b : Nat}
    {s1 s2 : Nat → List Nat} {t1 t2 : Nat → List Nat × List Nat × List Nat}
    (hval : ValidGraph W n) (hn : 1 ≤ n) (hb1 : 1 ≤ b) (hbn : b ≤ n) (hdvd : b ∣ n)
    (hs1 : ∀ k, (s1 k).Perm (List.range n)) (hs2 : ∀ k, (s2 k).Perm (List.range n))
    (ht1 : ∀ k, (t1 k).1.Perm (List.range (n / b)) ∧
      (t1 k).2.1.Perm (List.range (n / b)) ∧ (t1 k).2.2.Perm (List.range (n / b)))
    (ht2 : ∀ k, (t2 k).1.Perm (List.range (n / b)) ∧
      (t2 k).2.1.Perm (List.range (n / b)) ∧ (t2 k).2.2.Perm (List.range (n / b))) :
    ∀ i j, i < n → j < n →
      naive_floyd_warshall W n s1 i j = naive_floyd_warshall W n s2 i j ∧
      blocked_floyd_warshall W n b t1 i j = blocked_floyd_warshall W n b t2 i j := by
  have hB := hval.bnd
  intro i j hi hj
  rw [naive_eq_delta hB hs1, naive_eq_delta hB hs2,
    blocked_eq_delta hB (by omega) hdvd ht1, blocked_eq_delta hB (by omega) hdvd ht2]
  exact ⟨rfl, rfl⟩

theorem C9_witness :
    naive_floyd_warshall Wex 2 (fun _ => List.range 2) 0 1
      = naive_floyd_warshall Wex 2 (fun _ => [1, 0]) 0 1 ∧
    blocked_floyd_warshall Wex 2 1 (fun _ => (List.range 2, List.range 2, List.range 2)) 0 1
      = blocked_floyd_warshall Wex 2 1 (fun _ => ([1, 0], [1, 0], [1, 0])) 0 1 :=
  @C9_scheduling_determinism Wex 2 1 (fun _ => List.range 2) (fun _ => [1, 0])
    (fun _ => (List.range 2, List.range 2, List.range 2))
    (fun _ => ([1, 0], [1, 0], [1, 0]))
    (by decide) (by decide) (by decide) (by decide) ⟨2, rfl⟩
    (fun _ => List.Perm.refl _)
    (fun _ => (by decide : ([1, 0] : List Nat).Perm (List.range 2)))
    (fun _ => ⟨List.Perm.refl _, List.Perm.refl _, List.Perm.refl _⟩)
    (fun _ => ⟨(by decide : ([1, 0] : List Nat).Perm (List.range 2)),
      (by decide : ([1, 0] : List Nat).Perm (List.range 2)),
      (by decide : ([1, 0] : List Nat).Perm (List.range 2))⟩)
    0 1 (by decide) (by decide)

/-- C10: the generator writes only the diagonal entries (to `0`) and the
sampled edge entries (to `1`); it never writes the sentinel, so every other
entry of the caller-supplied buffer keeps its prior value.  The diagonal is
zeroed before the feasibility check, so on failure (`-1`) the buffer is still
modified: its diagonal is `0` and everything else is untouched. -/
theorem C10_generate_frame (g : Mat) (V E : Nat) (stream : Nat → Nat) (fuel : Nat) :
    (∀ i j, (generate_linear_graph g V E stream fuel).2 i j = g i j ∨
      (i = j ∧ i < V ∧ (generate_linear_graph g V E stream fuel).2 i j = 0) ∨
      (i ≠ j ∧ (generate_linear_graph g V E stream fuel).2 i j = 1)) ∧
    (∀ i, i < V → (generate_linear_graph g V E stream fuel).2 i i = 0) ∧
    (E > V * (V - 1) →
      (generate_linear_graph g V E stream fuel).1 = some (-1) ∧
      ∀ i j, (generate_linear_graph g V E stream fuel).2 i j
        = if i = j ∧ i < V then 0 else g i j) := by
  have hcase : ((generate_linear_graph g V E stream fuel).2 = setDiag g V) ∨
      (∃ es, sampleLoop V E stream fuel 0 [] = some es ∧
        (generate_linear_graph g V E stream fuel).2 = markEdges (setDiag g V) es) := by
    simp only [generate_linear_graph]
    by_cases hfe : E > V * (V - 1)
    · rw [if_pos hfe]
      exact Or.inl rfl
    · rw [if_neg hfe]
      rcases hs : sampleLoop V E stream fuel 0 [] with _ | es
      · exact Or.inl rfl
      · exact Or.inr ⟨es, rfl, rfl⟩
  refine ⟨?_, ?_, ?_⟩
  · intro i j
    rcases hcase with h | ⟨es, hs, h⟩
    · rw [h, setDiag_eval]
      by_cases hd : i = j ∧ i < V
      · exact Or.inr (Or.inl ⟨hd.1, hd.2, if_pos hd⟩)
      · exact Or.inl (if_neg hd)
    · rw [h, markEdges_eval]
      by_cases hmem : (i, j) ∈ es
      · rcases sampleLoop_ne V E stream fuel 0 [] es hs (i, j) hmem with habs | hne
        · exact absurd habs (List.not_mem_nil _)
        · exact Or.inr (Or.inr ⟨hne, if_pos hmem⟩)
      · rw [if_neg hmem, setDiag_eval]
        by_cases hd : i = j ∧ i < V
        · exact Or.inr (Or.inl ⟨hd.1, hd.2, if_pos hd⟩)
        · exact Or.inl (if_neg hd)
  · intro i hi
    rcases hcase with h | ⟨es, hs, h⟩
    · rw [h, setDiag_eval]
      show (if i = i ∧ i < V then (0 : Int) else g i i) = 0
      rw [if_pos ⟨rfl, hi⟩]
    · rw [h, markEdges_eval]
      have hmem : ¬((i, i) ∈ es) := fun hmem => by
        rcases sampleLoop_ne V E stream fuel 0 [] es hs (i, i) hmem with habs | hne
        · exact absurd habs (List.not_mem_nil _)
        · exact hne rfl
      rw [if_neg hmem, setDiag_eval]
      show (if i = i ∧ i < V then (0 : Int) else g i i) = 0
      rw [if_pos ⟨rfl, hi⟩]
  · intro hfe
    constructor
    · simp only [generate_linear_graph, if_pos hfe]
    · intro i j
      have h2 : (generate_linear_graph g V E stream fuel).2 = setDiag g V := by
        simp only [generate_linear_graph, if_pos hfe]
      rw [h2, setDiag_eval]

theorem C10_witness :
    ((generate_linear_graph Wex 2 3 (fun c => c) 0).2 0 0 = 0) ∧
    ((generate_linear_graph Wex 2 3 (fun c => c) 0).1 = some (-1)) ∧
    ((generate_linear_graph Wex 2 3 (fun c => c) 0).2 1 0
      = if (1 : Nat) = 0 ∧ (1 : Nat) < 2 then 0 else Wex 1 0) :=
  ⟨(C10_generate_frame Wex 2 3 (fun c => c) 0).2.1 0 (by decide),
   ((C10_generate_frame Wex 2 3 (fun c => c) 0).2.2 (by decide)).1,
   ((C10_generate_frame Wex 2 3 (fun c => c) 0).2.2 (by decide)).2 1 0⟩
